import Mathlib

/-!
Verification of the Asynkron.TextLayout invoice-parsing core.

This file shallowly embeds the Python source of the repository
(`src/textlayout/...`) in Lean 4 and settles a list of claims about it.
Python `Decimal` values are modelled as `ℚ` (the amounts manipulated here
are exact decimal fractions), `str` as `String`/`List Char`, `None` as
`Option`, and exceptions as `Except`/fall-through control flow made
explicit.  Each definition mirrors one Python function and is named after
it.
-/

namespace TextLayout

/-- `Locale` enumeration from `parsing/locale.py`. -/
inductive Locale where
  | Unknown
  | US
  | European
deriving DecidableEq, Repr

/-- `InvoiceLineItem` from `parsing/parsed_invoice.py`. -/
structure InvoiceLineItem where
  Description : Option String := none
  Quantity : Option ℚ := none
  UnitPrice : Option ℚ := none
  Amount : Option ℚ := none
deriving DecidableEq, Repr

/-- `ParsedInvoice` from `parsing/parsed_invoice.py`.  `date` fields are kept
as raw strings plus a year/month/day triple is not needed here; `Decimal`
fields are `ℚ` and `float` confidence is `ℚ`. -/
structure ParsedInvoice where
  InvoiceNumber : Option String := none
  VendorName : Option String := none
  VendorAddress : Option String := none
  OrganizationId : Option String := none
  VatNumber : Option String := none
  Customer : Option String := none
  InvoiceDateRaw : Option String := none
  DueDateRaw : Option String := none
  TotalAmount : Option ℚ := none
  TotalExcludingVat : Option ℚ := none
  VatAmount : Option ℚ := none
  VatRate : Option ℚ := none
  Currency : Option String := none
  LineItems : List InvoiceLineItem := []
  RawText : Option String := none
  Confidence : ℚ := 0
  Warnings : List String := []
deriving DecidableEq, Repr

/-- The `if/elif` derivation chain of
`UnifiedInvoiceParser._calculate_missing_vat_values`
(`parsing/unified_invoice_parser.py`, lines 212-225).  The Python method
mutates `invoice` in place; here it returns the updated record. -/
def applyVatBranchChain (invoice : ParsedInvoice) : ParsedInvoice :=
  let derivedSub := some (invoice.TotalAmount.getD 0 - invoice.VatAmount.getD 0)
  let derivedTotal :=
    some (invoice.TotalExcludingVat.getD 0 + invoice.VatAmount.getD 0)
  let rateVat := invoice.TotalExcludingVat.getD 0 * invoice.VatRate.getD 0 / 100
  let rateTotal := some (invoice.TotalExcludingVat.getD 0 + rateVat)
  let derivedVat :=
    some (invoice.TotalAmount.getD 0 - invoice.TotalExcludingVat.getD 0)
  if invoice.TotalAmount.isSome ∧ invoice.VatAmount.isSome ∧
      invoice.TotalExcludingVat.isNone then
    { invoice with TotalExcludingVat := derivedSub }
  else if invoice.TotalExcludingVat.isSome ∧ invoice.VatAmount.isSome ∧
      invoice.TotalAmount.isNone then
    { invoice with TotalAmount := derivedTotal }
  else if invoice.TotalExcludingVat.isSome ∧ invoice.VatRate.isSome ∧
      invoice.TotalAmount.isNone then
    { invoice with VatAmount := some rateVat, TotalAmount := rateTotal }
  else if invoice.TotalAmount.isSome ∧ invoice.TotalExcludingVat.isSome ∧
      invoice.VatAmount.isNone then
    { invoice with VatAmount := derivedVat }
  else invoice

/-- The trailing contradiction guard of `_calculate_missing_vat_values`:
a VAT amount ≥ the total amount is discarded. -/
def vatConsistencyGuard (inv : ParsedInvoice) : ParsedInvoice :=
  if inv.VatAmount.isSome ∧ inv.TotalAmount.isSome ∧
      inv.VatAmount.getD 0 ≥ inv.TotalAmount.getD 0 then
    { inv with VatAmount := none }
  else inv

/-- The full `_calculate_missing_vat_values`: the derivation branch chain
followed by the contradiction guard. -/
def calculateMissingVatValues (invoice : ParsedInvoice) : ParsedInvoice :=
  vatConsistencyGuard (applyVatBranchChain invoice)

/-- `PdfExtractionVariant` from `parsing/pdf_text_extractor.py`. -/
structure PdfExtractionVariant where
  Text : String
  ExtractorName : String
  QualityScore : ℚ
deriving DecidableEq, Repr

/-- Helper for `PdfExtractionResult.BestText`: Python
`max(variants, key=lambda v: v.QualityScore)` returns the first variant
attaining the maximal quality score. -/
def maxByQuality : List PdfExtractionVariant → Option PdfExtractionVariant
  | [] => none
  | v :: rest =>
    match maxByQuality rest with
    | none => some v
    | some w => if w.QualityScore > v.QualityScore then some w else some v

/-- `PdfExtractionResult` from `parsing/pdf_text_extractor.py`. -/
structure PdfExtractionResult where
  Variants : List PdfExtractionVariant
deriving DecidableEq, Repr

/-- `PdfExtractionResult.BestText`: `None` when there are no variants,
otherwise the text of the highest-quality variant. -/
def PdfExtractionResult.BestText (r : PdfExtractionResult) : Option String :=
  (maxByQuality r.Variants).map (·.Text)

/-- `InvoiceParsingFacade.ParseInvoice` (`parsing/invoice_parsing_facade.py`).
The call to `UnifiedInvoiceParser.Parse` (together with the email-date
formatting) sits inside a `try`; its outcome, an exception or a parsed
invoice, is the explicit `parseOutcome` argument.  The logger only reports
and does not affect the result, so it is omitted. -/
def ParseInvoice (extraction : Option PdfExtractionResult)
    (parseOutcome : Except Unit ParsedInvoice) : ParsedInvoice :=
  match extraction with
  | none => { Confidence := 0 }
  | some e =>
    if e.Variants = [] then { Confidence := 0 }
    else
      match parseOutcome with
      | .ok invoice => invoice
      | .error _ =>
        { RawText := e.BestText, Confidence := 0, Warnings := ["ParsingError"] }

/-- `ExtractionContext` from `parsing/extractors/extraction_context.py`. -/
structure ExtractionContext where
  Text : String
  Lines : List String
  Locale : Locale
  SenderHint : Option String := none
  EmailBodyHint : Option String := none
  EmailSubject : Option String := none
deriving DecidableEq, Repr

/-- `ExtractionContext.with_text`: a sibling context with a new text body. -/
def ExtractionContext.with_text (c : ExtractionContext) (text : String) :
    ExtractionContext :=
  { Text := text, Lines := c.Lines, Locale := c.Locale,
    SenderHint := c.SenderHint, EmailBodyHint := c.EmailBodyHint,
    EmailSubject := c.EmailSubject }

/-- `AnchorPosition` enumeration from `parsing/extractors/anchored_extractor.py`. -/
inductive AnchorPosition where
  | none_
  | left
  | right
  | above
  | below
  | any
deriving DecidableEq, Repr

/-- Python `round` on a float rounds half to even.  The bonus computation in
`_calculate_bonus` multiplies small integers by the multipliers
`{0.3, 0.4, 0.5, 0.7, 0.9, 1.0, 1 - d/30}`; for bonus votes in the range
used by the static anchor tables (1..5) the double-precision evaluation
agrees with exact rational arithmetic at every rounding boundary, so the
computation is modelled exactly over `ℚ` with half-to-even rounding. -/
def roundHalfEven (q : ℚ) : ℤ :=
  if q - ⌊q⌋ < 1/2 then ⌊q⌋
  else if 1/2 < q - ⌊q⌋ then ⌊q⌋ + 1
  else if ⌊q⌋ % 2 = 0 then ⌊q⌋ else ⌊q⌋ + 1

/-- The multiplier table of `AnchoredExtractor._calculate_bonus`
(`parsing/extractors/anchored_extractor.py`, lines 207-225). -/
def bonusMultiplier (position : AnchorPosition) (distance : ℤ) : ℚ :=
  match position with
  | .left => if distance ≤ 3 then 1 else max (1/2) (1 - (distance : ℚ)/30)
  | .above => if distance = 1 then 9/10 else 7/10
  | .right => 2/5
  | .below => 3/10
  | .any => 3/10
  | .none_ => 0

/-- Half-to-even rounding of the fraction `num / den` for `den > 0`, in
integer arithmetic (`fdiv`/`fmod` are floor division and its remainder). -/
def roundHalfEvenInt (num den : ℤ) : ℤ :=
  let f := num.fdiv den
  let r := num.fmod den
  if 2 * r < den then f
  else if den < 2 * r then f + 1
  else if f % 2 = 0 then f else f + 1

/-- The multiplier table scaled by 30: every multiplier of
`_calculate_bonus` is an exact multiple of 1/30 (1 = 30/30, 0.9 = 27/30,
0.7 = 21/30, 0.4 = 12/30, 0.3 = 9/30, `max(0.5, 1 − d/30)` =
`max(15, 30−d)/30`). -/
def bonusMultiplier30 (position : AnchorPosition) (distance : ℤ) : ℤ :=
  match position with
  | .left => if distance ≤ 3 then 30 else max 15 (30 - distance)
  | .above => if distance = 1 then 27 else 21
  | .right => 12
  | .below => 9
  | .any => 9
  | .none_ => 0

/-- `AnchoredExtractor._calculate_bonus`: returns `0` for no relation,
otherwise the anchor's bonus votes times the position multiplier, rounded
half to even (Python `round`).  Computed in integer arithmetic over the
common denominator 30; `calculateBonus_eq_rounded_multiplier` proves this
equal to half-even rounding of the exact rational product.  (For the bonus
votes 1..5 of the static anchor tables the source's double-precision
evaluation agrees with the exact rational product at every rounding
boundary, so this is the source's function.) -/
def calculateBonus (bonusVotes : ℤ) (position : AnchorPosition)
    (distance : ℤ) : ℤ :=
  if position = .none_ then 0
  else roundHalfEvenInt (bonusVotes * bonusMultiplier30 position distance) 30

/-- `ExtractionResult` from `parsing/extractors/extraction_result.py`. -/
structure ExtractionResult where
  Value : Option String
  Votes : ℤ
  MatchedText : Option String := none
deriving DecidableEq, Repr

/-- `ExtractionResult.HasValue`: the value is present and the vote count is
strictly positive. -/
def ExtractionResult.HasValue (r : ExtractionResult) : Bool :=
  r.Value.isSome && decide (0 < r.Votes)

/-- One step of the aggregator's vote accounting
(`votes[result.Value] = votes.get(result.Value, 0) + result.Votes`), on an
insertion-ordered association list modelling the Python `dict`. -/
def addVote : List (String × ℤ) → String → ℤ → List (String × ℤ)
  | [], k, v => [(k, v)]
  | (k', v') :: rest, k, v =>
    if k' = k then (k', v' + v) :: rest else (k', v') :: addVote rest k v

/-- An extractor is modelled by its `ExtractAll` method: a function from a
context to a list of results (dynamic dispatch over the `IExtractor`
interface becomes a function argument). -/
def Extractor : Type := ExtractionContext → List ExtractionResult

/-- All `(text, extractor, result)` triples visited by the loops of
`ExtractorAggregator.ExtractBest`, flattened in iteration order; each
extractor runs on `context.with_text(text)`. -/
def allResults (texts : List String) (context : ExtractionContext)
    (extractors : List Extractor) : List ExtractionResult :=
  texts.flatMap fun text =>
    extractors.flatMap fun extractor => extractor (context.with_text text)

/-- The body of the aggregator loops: skip a result without `HasValue`,
otherwise account its votes under its value. -/
def tallyStep (votes : List (String × ℤ)) (r : ExtractionResult) :
    List (String × ℤ) :=
  if r.HasValue then addVote votes (r.Value.getD "") r.Votes else votes

/-- The aggregator's vote dictionary: results without a value or without
positive votes are skipped, the rest have their votes summed per value. -/
def tallyVotes (results : List ExtractionResult) : List (String × ℤ) :=
  results.foldl tallyStep []

/-- `max(votes.items(), key=lambda item: item[1])[0]`: Python's `max` keeps
the first item attaining the maximal vote sum. -/
def maxVoteKey (bestKey : String) (bestVotes : ℤ) :
    List (String × ℤ) → String
  | [] => bestKey
  | (k, v) :: rest =>
    if v > bestVotes then maxVoteKey k v rest else maxVoteKey bestKey bestVotes rest

/-- `ExtractorAggregator.ExtractBest`
(`parsing/extractors/extractor_aggregator.py`, lines 10-31). -/
def ExtractBest (texts : List String) (context : ExtractionContext)
    (extractors : List Extractor) : Option String :=
  match tallyVotes (allResults texts context extractors) with
  | [] => none
  | (k, v) :: rest => some (maxVoteKey k v rest)

/-- The total number of votes cast for value `k` by the surviving results:
the reference sum the aggregator is claimed to maximise. -/
def votesFor (results : List ExtractionResult) (k : String) : ℤ :=
  ((results.filter fun r => r.HasValue && r.Value == some k).map (·.Votes)).sum

/-- Total votes recorded for key `k` in a vote list (0 when absent; a sum in
general, the unique entry when keys are distinct). -/
def keyTotal (l : List (String × ℤ)) (k : String) : ℤ :=
  ((l.filter fun p => p.1 == k).map (·.2)).sum

/-! ### Money parsing (`parsing/money_parser.py`)

Strings are handled as `List Char`.  Python's regex `\s` and `str.isspace`
cover Unicode whitespace and `\d`/`\w` cover Unicode digits and word
characters; the texts embedded in this development are ASCII, where the
definitions below agree with Python. -/

/-- Python whitespace (regex `\s`, `str.isspace`, `str.strip`) on the ASCII
range. -/
def isPySpace (c : Char) : Bool :=
  c == ' ' || c == '\t' || c == '\n' || c == '\r' || c == '\x0b' || c == '\x0c'

/-- ASCII decimal digit (regex `\d`). -/
def isPyDigit (c : Char) : Bool :=
  '0' ≤ c && c ≤ '9'

/-- `str.strip()`: remove leading and trailing whitespace. -/
def stripEnds (s : List Char) : List Char :=
  ((s.dropWhile isPySpace).reverse.dropWhile isPySpace).reverse

/-- Case-insensitive consumption of a fixed lowercase pattern: the rest of
the input on success. -/
def takeCI : List Char → List Char → Option (List Char)
  | s, [] => some s
  | [], _ :: _ => none
  | c :: s, p :: ps => if c.toLower == p then takeCI s ps else none

/-- The word alternatives of `_ANY_CURRENCY_PATTERN`
(`EUR|USD|GBP|SEK|NOK|DKK|CHF|kr`, case-insensitive), in the pattern's
order. -/
def currencyWordAlternatives : List (List Char) :=
  [['e','u','r'], ['u','s','d'], ['g','b','p'], ['s','e','k'],
   ['n','o','k'], ['d','k','k'], ['c','h','f'], ['k','r']]

/-- First matching alternative at the current position, Python trying
alternatives left to right. -/
def firstCurrencyWord : List (List Char) → List Char → Option (List Char)
  | [], _ => none
  | p :: ps, s =>
    match takeCI s p with
    | some rest => some rest
    | none => firstCurrencyWord ps s

/-- `_ANY_CURRENCY_PATTERN.sub("", text)`: remove every non-overlapping
leftmost match of `[€$£]|EUR|USD|GBP|SEK|NOK|DKK|CHF|kr` (case-insensitive;
the pattern has no word boundaries).  `fuel` is the input length; each step
consumes at least one character, so the fuel never runs out. -/
def stripCurrencyAux : Nat → List Char → List Char
  | 0, s => s
  | _ + 1, [] => []
  | fuel + 1, c :: rest =>
    if c == '€' || c == '$' || c == '£' then stripCurrencyAux fuel rest
    else
      match firstCurrencyWord currencyWordAlternatives (c :: rest) with
      | some rest2 => stripCurrencyAux fuel rest2
      | none => c :: stripCurrencyAux fuel rest

/-- Currency stripping at full fuel. -/
def stripCurrency (s : List Char) : List Char :=
  stripCurrencyAux s.length s

/-- Numeric value of an ASCII digit. -/
def digitVal (c : Char) : ℕ :=
  c.toNat - '0'.toNat

/-- Value of a digit string. -/
def digitsToNat (s : List Char) : ℕ :=
  s.foldl (fun a c => 10 * a + digitVal c) 0

/-- Python `decimal.Decimal` values, as the module itself represents them: a
signed integer coefficient and a power-of-ten exponent, value
`coeff × 10 ^ exp`.  Exact decimal arithmetic lives on this type as integer
arithmetic, which (unlike `ℚ`'s normalising operations) the kernel can
evaluate. -/
structure PyDec where
  coeff : ℤ
  exp : ℤ
deriving DecidableEq, Repr

/-- The rational value of a `Decimal`. -/
def PyDec.toRat (d : PyDec) : ℚ :=
  (d.coeff : ℚ) * (10 : ℚ) ^ d.exp

/-- Value comparison `a < b` of two `Decimal`s by cross-scaling to a common
exponent. -/
def PyDec.blt (a b : PyDec) : Bool :=
  if 0 ≤ a.exp - b.exp then a.coeff * (10 : ℤ) ^ (a.exp - b.exp).toNat < b.coeff
  else a.coeff < b.coeff * (10 : ℤ) ^ (b.exp - a.exp).toNat

/-- Value comparison `a ≤ b`. -/
def PyDec.ble (a b : PyDec) : Bool :=
  if 0 ≤ a.exp - b.exp then a.coeff * (10 : ℤ) ^ (a.exp - b.exp).toNat ≤ b.coeff
  else a.coeff ≤ b.coeff * (10 : ℤ) ^ (b.exp - a.exp).toNat

/-- Value equality `a == b`. -/
def PyDec.beqv (a b : PyDec) : Bool :=
  if 0 ≤ a.exp - b.exp then a.coeff * (10 : ℤ) ^ (a.exp - b.exp).toNat = b.coeff
  else a.coeff = b.coeff * (10 : ℤ) ^ (b.exp - a.exp).toNat

/-- An integer `Decimal` literal such as `Decimal("1000")`. -/
def PyDec.ofInt (n : ℤ) : PyDec :=
  ⟨n, 0⟩

/-- `amount == amount.to_integral_value()`: whether the value is an
integer. -/
def PyDec.isIntegral (d : PyDec) : Bool :=
  0 ≤ d.exp || d.coeff % (10 : ℤ) ^ (-d.exp).toNat == 0

/-- The significand part of a Python `Decimal` numeric string: digits with
at most one decimal point and at least one digit (`D+ | D+ . D* | . D+`);
the result's exponent is minus the number of fractional digits, as the
`decimal` module stores it. -/
def parseSignificand (s : List Char) : Option PyDec :=
  let intPart := s.takeWhile (fun c => c ≠ '.')
  let rest := s.dropWhile (fun c => c ≠ '.')
  let fracPart := rest.drop 1
  if rest ≠ [] ∧ rest.head? ≠ some '.' then none
  else if fracPart.contains '.' then none
  else if ¬ intPart.all isPyDigit ∨ ¬ fracPart.all isPyDigit then none
  else if intPart = [] ∧ fracPart = [] then none
  else
    some ⟨(digitsToNat (intPart ++ fracPart) : ℤ), -(fracPart.length : ℤ)⟩

/-- Exponent part after `e`/`E`: optional sign then at least one digit. -/
def parseExponent (s : List Char) : Option ℤ :=
  match s with
  | '+' :: ds =>
    if ds ≠ [] ∧ ds.all isPyDigit then some (digitsToNat ds : ℤ) else none
  | '-' :: ds =>
    if ds ≠ [] ∧ ds.all isPyDigit then some (-(digitsToNat ds : ℤ)) else none
  | ds =>
    if ds ≠ [] ∧ ds.all isPyDigit then some (digitsToNat ds : ℤ) else none

/-- Model of Python `decimal.Decimal(str)` for finite numeric strings:
underscores and surrounding whitespace are removed, then
`[sign] significand [ (e|E) exponent ]`.  The special values
(`NaN`, `Infinity`), which no amount string of this code base produces and
every downstream comparison filters out, are collapsed to `none`. -/
def pyDecimal (s0 : List Char) : Option PyDec :=
  let s1 := stripEnds (s0.filter (fun c => c ≠ '_'))
  let signed : List Char → Option PyDec := fun body =>
    let mantissa := body.takeWhile (fun c => c ≠ 'e' ∧ c ≠ 'E')
    let rest := body.dropWhile (fun c => c ≠ 'e' ∧ c ≠ 'E')
    match rest with
    | [] => parseSignificand mantissa
    | _ :: expPart =>
      match parseSignificand mantissa, parseExponent expPart with
      | some m, some e => some ⟨m.coeff, m.exp + e⟩
      | _, _ => none
  match s1 with
  | '+' :: body => signed body
  | '-' :: body => (signed body).map (fun d => ⟨-d.coeff, d.exp⟩)
  | body => signed body

/-- `MoneyParser._try_parse_decimal` on an already-built digit string. -/
def tryParseDecimal (s : List Char) : Option PyDec :=
  pyDecimal s

/-- Split at the unique occurrence of `sep`: `none` when `sep` occurs zero
or several times.  Every anchored amount pattern of `money_parser.py` has
digit-only material on the decimal side and `sep`-free material on the
integer side, so a match forces exactly one separator and this split
recovers the two regex groups. -/
def splitOnce (sep : Char) : List Char → Option (List Char × List Char)
  | [] => none
  | c :: rest =>
    if c = sep then
      if rest.contains sep then none else some ([], rest)
    else
      match splitOnce sep rest with
      | some (l, r) => some (c :: l, r)
      | none => none

/-- Shape of `(?:[SEP]\d{3})*`: groups of exactly three digits, each
preceded by one separator character satisfying `sepOk`. -/
def groupsOfThree (sepOk : Char → Bool) : List Char → Bool
  | [] => true
  | c :: rest =>
    sepOk c &&
      match rest with
      | d1 :: d2 :: d3 :: rest2 =>
        isPyDigit d1 && isPyDigit d2 && isPyDigit d3 && groupsOfThree sepOk rest2
      | _ => false

/-- Shape of `\d{1,3}(?:[SEP]\d{3})*` (anchored on both sides). -/
def groupedIntShape (sepOk : Char → Bool) (s : List Char) : Bool :=
  let run := s.takeWhile isPyDigit
  let rest := s.dropWhile isPyDigit
  decide (1 ≤ run.length) && decide (run.length ≤ 3) && groupsOfThree sepOk rest

/-- `_EUROPEAN_FORMATTED_AMOUNT_PATTERN` `^(\d{1,3}(?:[\s\.]\d{3})*),(\d{1,2})$`:
on a match, the integer group with spaces and dots removed, and the decimal
group. -/
def euroFormattedParts (s : List Char) : Option (List Char × List Char) :=
  match splitOnce ',' s with
  | some (l, r) =>
    if groupedIntShape (fun c => isPySpace c || c == '.') l ∧
        r.all isPyDigit ∧ 1 ≤ r.length ∧ r.length ≤ 2 then
      some (l.filter (fun c => c ≠ ' ' ∧ c ≠ '.'), r)
    else none
  | none => none

/-- `_SIMPLE_COMMA_DECIMAL_PATTERN` `^(\d+),(\d{1,2})$`. -/
def simpleCommaParts (s : List Char) : Option (List Char × List Char) :=
  match splitOnce ',' s with
  | some (l, r) =>
    if l ≠ [] ∧ l.all isPyDigit ∧ r.all isPyDigit ∧ 1 ≤ r.length ∧
        r.length ≤ 2 then
      some (l, r)
    else none
  | none => none

/-- `_US_FORMATTED_AMOUNT_PATTERN` `^(\d{1,3}(?:,\d{3})*)\.(\d{1,2})$`: on a
match, the integer group with commas removed, and the decimal group. -/
def usFormattedParts (s : List Char) : Option (List Char × List Char) :=
  match splitOnce '.' s with
  | some (l, r) =>
    if groupedIntShape (fun c => c == ',') l ∧
        r.all isPyDigit ∧ 1 ≤ r.length ∧ r.length ≤ 2 then
      some (l.filter (fun c => c ≠ ','), r)
    else none
  | none => none

/-- `_SIMPLE_DOT_DECIMAL_PATTERN` `^(\d+)\.(\d{1,2})$`. -/
def simpleDotParts (s : List Char) : Option (List Char × List Char) :=
  match splitOnce '.' s with
  | some (l, r) =>
    if l ≠ [] ∧ l.all isPyDigit ∧ r.all isPyDigit ∧ 1 ≤ r.length ∧
        r.length ≤ 2 then
      some (l, r)
    else none
  | none => none

/-- Whether a character list starts with an ASCII digit. -/
def headIsDigit : List Char → Bool
  | [] => false
  | c :: _ => isPyDigit c

/-- `_COMMA_DECIMAL_WITH_SEPARATORS_PATTERN` `^(\d[\d\s\.]*)?,(\d{2})$`: the
optional integer group (spaces and dots removed; empty when absent) and the
two decimal digits. -/
def commaWithSepsParts (s : List Char) : Option (List Char × List Char) :=
  match splitOnce ',' s with
  | some (l, r) =>
    if (l = [] ∨ (headIsDigit l = true ∧
          (l.drop 1).all (fun c => isPyDigit c || isPySpace c || c == '.'))) ∧
        r.all isPyDigit ∧ r.length = 2 then
      some (l.filter (fun c => c ≠ ' ' ∧ c ≠ '.'), r)
    else none
  | none => none

/-- `_DOT_DECIMAL_WITH_SEPARATORS_PATTERN` `^(\d[\d,]*)\.(\d{2})$`: the
integer group (commas removed) and the two decimal digits. -/
def dotWithSepsParts (s : List Char) : Option (List Char × List Char) :=
  match splitOnce '.' s with
  | some (l, r) =>
    if headIsDigit l = true ∧
        (l.drop 1).all (fun c => isPyDigit c || c == ',') ∧
        r.all isPyDigit ∧ r.length = 2 then
      some (l.filter (fun c => c ≠ ','), r)
    else none
  | none => none

/-- Build `f"{int_part}.{dec_part}"` and parse it as a `Decimal`. -/
def parseJoined (parts : List Char × List Char) : Option PyDec :=
  tryParseDecimal (parts.1 ++ '.' :: parts.2)

/-- The locale-independent tail of `MoneyParser.ParseAmount`: the two
separator-convention patterns, then a plain `Decimal` parse. -/
def parseAmountFallback (t : List Char) : Option PyDec :=
  match commaWithSepsParts t with
  | some parts => parseJoined parts
  | none =>
    match dotWithSepsParts t with
    | some parts => parseJoined parts
    | none => tryParseDecimal t

/-- `MoneyParser.ParseAmount` (`parsing/money_parser.py`, lines 105-149):
strip currency tokens, then try the locale-specific patterns, then — under
every locale — the fallback patterns.  A matched pattern returns its parse
result even when that is `none`. -/
def ParseAmountCore (chars : List Char) (locale : Locale) : Option PyDec :=
  let t := stripEnds (stripCurrency chars)
  if t = [] then none
  else if locale = .European then
    match euroFormattedParts t with
    | some parts => parseJoined parts
    | none =>
      match simpleCommaParts t with
      | some parts => parseJoined parts
      | none => parseAmountFallback t
  else if locale = .US then
    match usFormattedParts t with
    | some parts => parseJoined parts
    | none =>
      match simpleDotParts t with
      | some parts => parseJoined parts
      | none => parseAmountFallback t
  else parseAmountFallback t

/-- `ParseAmount` on a Python string. -/
def ParseAmount (text : String) (locale : Locale) : Option PyDec :=
  ParseAmountCore text.data locale

/-! ### Date parsing (`parsing/date_parser.py`) -/

/-- A `datetime.date` value. -/
structure PyDate where
  year : ℕ
  month : ℕ
  day : ℕ
deriving DecidableEq, Repr

/-- Gregorian leap year, as `datetime` implements it. -/
def isLeapYear (y : ℕ) : Bool :=
  (y % 4 == 0 && y % 100 != 0) || y % 400 == 0

/-- Days in a month of a year. -/
def daysInMonth (y m : ℕ) : ℕ :=
  if m = 2 then (if isLeapYear y then 29 else 28)
  else if m = 4 ∨ m = 6 ∨ m = 9 ∨ m = 11 then 30
  else 31

/-- `datetime.date(y, m, d)`: `none` models the `ValueError` raised outside
the ranges year 1..9999, month 1..12, day 1..days-in-month. -/
def mkDate (y m d : ℕ) : Option PyDate :=
  if 1 ≤ y ∧ y ≤ 9999 ∧ 1 ≤ m ∧ m ≤ 12 ∧ 1 ≤ d ∧ d ≤ daysInMonth y m then
    some ⟨y, m, d⟩
  else none

/-- First success of `f` over a list, in order. -/
def firstSome {α β : Type} (f : α → Option β) : List α → Option β
  | [] => none
  | a :: rest =>
    match f a with
    | some b => some b
    | none => firstSome f rest

/-- `(\d{1,2})` with the regex's greedy order: the two-digit reading first,
then the one-digit reading, each with the rest of the input. -/
def digits1or2 : List Char → List (ℕ × List Char)
  | a :: b :: rest =>
    if isPyDigit a && isPyDigit b then
      [(10 * digitVal a + digitVal b, rest), (digitVal a, b :: rest)]
    else if isPyDigit a then [(digitVal a, b :: rest)]
    else []
  | [a] => if isPyDigit a then [(digitVal a, [])] else []
  | [] => []

/-- `(\d{4})`: exactly four digits, with the rest. -/
def fourDigits : List Char → Option (ℕ × List Char)
  | a :: b :: c :: d :: rest =>
    if isPyDigit a && isPyDigit b && isPyDigit c && isPyDigit d then
      some (digitsToNat [a, b, c, d], rest)
    else none
  | _ => none

/-- `(\d{2})`: exactly two digits, with the rest. -/
def twoDigits : List Char → Option (ℕ × List Char)
  | a :: b :: rest =>
    if isPyDigit a && isPyDigit b then some (digitsToNat [a, b], rest)
    else none
  | _ => none

/-- `_ISO_DATE_PATTERN` `(\d{4})-(\d{2})-(\d{2})` at the current position:
`(year, month, day)` digit groups. -/
def isoDateAt (s : List Char) : Option (ℕ × ℕ × ℕ) :=
  match fourDigits s with
  | some (y, r1) =>
    match r1 with
    | '-' :: r2 =>
      match twoDigits r2 with
      | some (m, r3) =>
        match r3 with
        | '-' :: r4 => (twoDigits r4).map (fun p => (y, m, p.1))
        | _ => none
      | none => none
    | _ => none
  | none => none

/-- `re.search` of the ISO date pattern: leftmost match. -/
def searchISO : List Char → Option (ℕ × ℕ × ℕ)
  | [] => none
  | c :: rest =>
    match isoDateAt (c :: rest) with
    | some r => some r
    | none => searchISO rest

/-- `(\d{1,2})SEP(\d{1,2})SEP(\d{4})` at the current position, with the
regex's greedy backtracking over the one-or-two-digit groups:
`(first, second, year)`. -/
def sepDateAt (sep : Char) (s : List Char) : Option (ℕ × ℕ × ℕ) :=
  firstSome (fun p =>
    match p.2 with
    | c1 :: r1 =>
      if c1 = sep then
        firstSome (fun q =>
          match q.2 with
          | c2 :: r2 =>
            if c2 = sep then
              (fourDigits r2).map (fun t => (p.1, q.1, t.1))
            else none
          | [] => none) (digits1or2 r1)
      else none
    | [] => none) (digits1or2 s)

/-- `re.search` of a separator date pattern: leftmost match. -/
def searchSepDate (sep : Char) : List Char → Option (ℕ × ℕ × ℕ)
  | [] => none
  | c :: rest =>
    match sepDateAt sep (c :: rest) with
    | some r => some r
    | none => searchSepDate sep rest

/-- One or more whitespace characters (`\s+`), maximal (the following token
is never whitespace, so the greedy maximal munch is exact): the rest on
success. -/
def spaces1 (s : List Char) : Option (List Char) :=
  let rest := s.dropWhile isPySpace
  if rest.length < s.length then some rest else none

/-- `_MONTH_NAMES` of `date_parser.py`, in the dict's insertion order.  The
source file stores the German March key with mojibake (`mÃ¤rz`), reproduced
here verbatim. -/
def monthNames : List (List Char × ℕ) :=
  [("january".data, 1), ("february".data, 2), ("march".data, 3),
   ("april".data, 4), ("may".data, 5), ("june".data, 6), ("july".data, 7),
   ("august".data, 8), ("september".data, 9), ("october".data, 10),
   ("november".data, 11), ("december".data, 12),
   ("jan".data, 1), ("feb".data, 2), ("mar".data, 3), ("apr".data, 4),
   ("jun".data, 6), ("jul".data, 7), ("aug".data, 8), ("sep".data, 9),
   ("oct".data, 10), ("nov".data, 11), ("dec".data, 12),
   ("januari".data, 1), ("februari".data, 2), ("mars".data, 3),
   ("maj".data, 5), ("juni".data, 6), ("juli".data, 7), ("augusti".data, 8),
   ("oktober".data, 10),
   ("sept".data, 9), ("okt".data, 10),
   ("januar".data, 1), ("mÃ¤rz".data, 3), ("mai".data, 5),
   ("dezember".data, 12)]

/-- `NAME\.?\s+(\d{1,2}),?\s+(\d{4})` at the current position
(case-insensitive name): `(day, year)`.  The optional dot and comma are
deterministic: when present they must be consumed, since `\s+` matches
neither. -/
def monthPatternOneAt (name : List Char) (s : List Char) : Option (ℕ × ℕ) :=
  match takeCI s name with
  | none => none
  | some r0 =>
    let r1 := match r0 with
      | '.' :: r => r
      | r => r
    match spaces1 r1 with
    | none => none
    | some r2 =>
      firstSome (fun p =>
        let r3 := match p.2 with
          | ',' :: r => r
          | r => r
        match spaces1 r3 with
        | none => none
        | some r4 => (fourDigits r4).map (fun t => (p.1, t.1)))
        (digits1or2 r2)

/-- `(\d{1,2})\s+NAME\.?\s+(\d{4})` at the current position
(case-insensitive name): `(day, year)`. -/
def monthPatternTwoAt (name : List Char) (s : List Char) : Option (ℕ × ℕ) :=
  firstSome (fun p =>
    match spaces1 p.2 with
    | none => none
    | some r1 =>
      match takeCI r1 name with
      | none => none
      | some r2 =>
        let r3 := match r2 with
          | '.' :: r => r
          | r => r
        match spaces1 r3 with
        | none => none
        | some r4 => (fourDigits r4).map (fun t => (p.1, t.1)))
    (digits1or2 s)

/-- Leftmost search of a position matcher. -/
def searchAt {β : Type} (matchAt : List Char → Option β) :
    List Char → Option β
  | [] => none
  | c :: rest =>
    match matchAt (c :: rest) with
    | some r => some r
    | none => searchAt matchAt rest

/-- The month-name loop of `DateParser.Parse`: for each name in dict order,
try pattern one then pattern two; an invalid calendar date (`ValueError`)
falls through to the next attempt. -/
def monthNameLoop : List (List Char × ℕ) → List Char → Option PyDate
  | [], _ => none
  | (name, num) :: rest, s =>
    match
      match searchAt (monthPatternOneAt name) s with
      | some (d, y) => mkDate y num d
      | none => none
    with
    | some date => some date
    | none =>
      match
        match searchAt (monthPatternTwoAt name) s with
        | some (d, y) => mkDate y num d
        | none => none
      with
      | some date => some date
      | none => monthNameLoop rest s

/-- The slash branch and month-name tail of `DateParser.Parse`. -/
def parseSlashOnwards (s : List Char) (locale : Locale) : Option PyDate :=
  let next :=
    match searchSepDate '/' s with
    | some (first, second, year) =>
      if locale = .US then
        if first ≤ 12 ∧ second ≤ 31 then mkDate year first second else none
      else
        if first ≤ 31 ∧ second ≤ 12 then mkDate year second first else none
    | none => none
  match next with
  | some date => some date
  | none => monthNameLoop monthNames s

/-- The European-dot branch of `DateParser.Parse` and everything after it:
the dot shape is only consulted when the locale is not US. -/
def parseDotOnwards (s : List Char) (locale : Locale) : Option PyDate :=
  let next :=
    match searchSepDate '.' s with
    | some (first, second, year) =>
      if locale ≠ .US ∧ first ≤ 31 ∧ second ≤ 12 then
        mkDate year second first
      else none
    | none => none
  match next with
  | some date => some date
  | none => parseSlashOnwards s locale

/-- `DateParser.Parse` (`parsing/date_parser.py`, lines 75-141): ISO, then
European dot (non-US locales only), then slash (locale-resolved), then the
month-name shapes; an invalid calendar date at any step falls through to
the next. -/
def DateParserParse (text : String) (locale : Locale) : Option PyDate :=
  let s := text.data
  let iso :=
    match searchISO s with
    | some (y, m, d) => mkDate y m d
    | none => none
  match iso with
  | some date => some date
  | none => parseDotOnwards s locale

/-! ### A small regex engine

The anchor and token patterns of `anchored_extractor.py` and
`anchored_total_amount_extractor.py` are fixed regexes using literals,
character classes, alternation, the greedy quantifiers `? * +` and bounded
repetitions, word boundaries, lookarounds, and a single-character negative
lookbehind.  The engine below interprets an AST of exactly these
constructs with Python's strategy: leftmost match, alternatives in written
order, greedy quantifiers with backtracking. -/

/-- Regex AST.  `*` and bounded repetitions are expressed through `opt`,
`rep1` and sequencing when the patterns are translated. -/
inductive Rx where
  | eps : Rx
  | cls : (Char → Bool) → Rx
  | seq : Rx → Rx → Rx
  | alt : Rx → Rx → Rx
  | opt : Rx → Rx
  | rep1 : Rx → Rx
  | wb : Rx
  | nla : Rx → Rx
  | la : Rx → Rx
  | nlb : (Char → Bool) → Rx

/-- Python `\w` (ASCII range): letters, digits, underscore. -/
def isWordChar (c : Char) : Bool :=
  c.isAlpha || isPyDigit c || c == '_'

/-- Whether the current input position is a `\b` boundary, given the
previously consumed character. -/
def atWordBoundary (prev : Option Char) (s : List Char) : Bool :=
  let before := (prev.map isWordChar).getD false
  let after := (s.head?.map isWordChar).getD false
  before != after

/-- All ways a regex can match a prefix of the input, as
`(last consumed character, rest)` pairs in Python's backtracking priority
order (first alternative first, greedy quantifiers longest first); the head
is the match Python reports.  `fuel` bounds the recursion depth: every
level consumes one unit, the `rep1` re-entry is guarded to consume input,
and the caller supplies `(size+1)·(length+2)` units, more than any
branch of the search tree can use. -/
def mrun : Nat → Rx → Option Char → List Char → List (Option Char × List Char)
  | 0, _, _, _ => []
  | _ + 1, .eps, prev, s => [(prev, s)]
  | _ + 1, .cls p, _, s =>
    match s with
    | [] => []
    | c :: rest => if p c then [(some c, rest)] else []
  | fuel + 1, .seq a b, prev, s =>
    (mrun fuel a prev s).flatMap fun o => mrun fuel b o.1 o.2
  | fuel + 1, .alt a b, prev, s => mrun fuel a prev s ++ mrun fuel b prev s
  | fuel + 1, .opt a, prev, s => mrun fuel a prev s ++ [(prev, s)]
  | fuel + 1, .rep1 a, prev, s =>
    (mrun fuel a prev s).flatMap fun o =>
      if o.2.length < s.length then mrun fuel (.rep1 a) o.1 o.2 ++ [o] else [o]
  | _ + 1, .wb, prev, s => if atWordBoundary prev s then [(prev, s)] else []
  | fuel + 1, .nla a, prev, s =>
    if (mrun fuel a prev s).isEmpty then [(prev, s)] else []
  | fuel + 1, .la a, prev, s =>
    if (mrun fuel a prev s).isEmpty then [] else [(prev, s)]
  | _ + 1, .nlb p, prev, s =>
    match prev with
    | none => [(prev, s)]
    | some c => if p c then [] else [(prev, s)]

/-- Structural size of a regex, for the fuel bound. -/
def Rx.size : Rx → Nat
  | .eps => 1
  | .cls _ => 1
  | .seq a b => a.size + b.size + 1
  | .alt a b => a.size + b.size + 1
  | .opt a => a.size + 1
  | .rep1 a => a.size + 1
  | .wb => 1
  | .nla a => a.size + 1
  | .la a => a.size + 1
  | .nlb _ => 1

/-- Run a regex at the current position with sufficient fuel. -/
def runRx (rx : Rx) (prev : Option Char) (s : List Char) :
    List (Option Char × List Char) :=
  mrun ((rx.size + 1) * (s.length + 2)) rx prev s

/-- Length of the match Python reports at this position, if any. -/
def rxMatchLen (rx : Rx) (prev : Option Char) (s : List Char) : Option Nat :=
  (runRx rx prev s).head?.map fun o => s.length - o.2.length

/-- `re.search` from a given offset: the leftmost position with a match,
with its length. -/
def rxSearchFrom (rx : Rx) : Option Char → Nat → List Char → Option (Nat × Nat)
  | prev, pos, s =>
    match rxMatchLen rx prev s with
    | some len => some (pos, len)
    | none =>
      match s with
      | [] => none
      | c :: rest => rxSearchFrom rx (some c) (pos + 1) rest

/-- Whether `re.search` finds a match anywhere. -/
def rxSearchBool (rx : Rx) (s : List Char) : Bool :=
  (rxSearchFrom rx none 0 s).isSome

/-- `re.finditer`: non-overlapping `(start, length)` matches left to right,
each search resuming at the end of the previous match (a zero-width match
advances by one, as Python does).  `fuel` is the input length plus one;
every iteration consumes at least one character. -/
def rxFindAllAux (rx : Rx) : Nat → Option Char → Nat → List Char →
    List (Nat × Nat)
  | 0, _, _, _ => []
  | fuel + 1, prev, pos, s =>
    match rxSearchFrom rx prev pos s with
    | none => []
    | some (mpos, len) =>
      let skip := (mpos - pos) + max len 1
      let consumed := s.take skip
      (mpos, len) ::
        rxFindAllAux rx fuel
          (match consumed.getLast? with
           | some c => some c
           | none => prev)
          (pos + skip) (s.drop skip)

/-- All matches of a pattern in a text. -/
def rxFindAll (rx : Rx) (s : List Char) : List (Nat × Nat) :=
  rxFindAllAux rx (s.length + 1) none 0 s

/-- The slice of a text a `(start, length)` match covers. -/
def sliceAt (s : List Char) (start len : Nat) : List Char :=
  (s.drop start).take len

/-- A case-insensitive literal: each pattern character written lowercase,
matched against the lowercased input character (`re.IGNORECASE`; ASCII
case folding, which agrees with Python on the ASCII texts used here). -/
def rxStr (w : String) : Rx :=
  w.data.foldr (fun c acc => .seq (.cls fun x => x.toLower == c) acc) .eps

/-- A single literal character class. -/
def rxChar (c : Char) : Rx :=
  .cls fun x => x.toLower == c

/-- `\s*` (greedy). -/
def rxSpaces0 : Rx :=
  .opt (.rep1 (.cls isPySpace))

/-- `\s+` (greedy). -/
def rxSpaces1 : Rx :=
  .rep1 (.cls isPySpace)

/-- `[:：]?` — the optional ASCII or full-width colon of the anchors. -/
def rxColonOpt : Rx :=
  .opt (.cls fun c => c == ':' || c == '：')

/-- `\d`. -/
def rxDigit : Rx :=
  .cls isPyDigit

/-- Chain a nonempty list of alternatives in written order. -/
def rxAlts : List Rx → Rx
  | [] => .eps
  | [r] => r
  | r :: rest => .alt r (rxAlts rest)

/-- Chain a sequence. -/
def rxCat : List Rx → Rx
  | [] => .eps
  | [r] => r
  | r :: rest => .seq r (rxCat rest)

/-! ### Patterns of `money_parser.py` and
`anchored_total_amount_extractor.py` as regex values -/

/-- `AmountTokenPattern`
`(?<!\d)(?:\d{1,3}(?:[ \t.,]\d{3})+|\d+)(?:[.,]\d{2})?(?!\d)`. -/
def amountTokenRx : Rx :=
  rxCat
    [.nlb isPyDigit,
     .alt
       (rxCat
         [rxDigit, .opt (.seq rxDigit (.opt rxDigit)),
          .rep1 (rxCat
            [.cls fun c => c == ' ' || c == '\t' || c == '.' || c == ',',
             rxDigit, rxDigit, rxDigit])])
       (.rep1 rxDigit),
     .opt (rxCat [.cls fun c => c == '.' || c == ',', rxDigit, rxDigit]),
     .nla rxDigit]

/-- The currency-code alternation `USD|EUR|GBP|SEK|NOK|DKK|CHF|INR`. -/
def currencyCodesRx : Rx :=
  rxAlts
    [rxStr "usd", rxStr "eur", rxStr "gbp", rxStr "sek",
     rxStr "nok", rxStr "dkk", rxStr "chf", rxStr "inr"]

/-- `CurrencyTokenPattern`
`\b(?:CODES)\b|(?:CODES)(?=\d)|[€$£]|\bkr\b` (case-insensitive). -/
def currencyTokenRx : Rx :=
  rxAlts
    [rxCat [.wb, currencyCodesRx, .wb],
     .seq currencyCodesRx (.la rxDigit),
     .cls fun c => c == '€' || c == '$' || c == '£',
     rxCat [.wb, rxStr "kr", .wb]]

/-- `_TOTAL_DUE_LINE_PATTERN`
`(?:total\s*due|due\s*[:：]?\s*total|amount\s+due|balance\s+due|att\s+betala)`. -/
def totalDueLineRx : Rx :=
  rxAlts
    [rxCat [rxStr "total", rxSpaces0, rxStr "due"],
     rxCat [rxStr "due", rxSpaces0, rxColonOpt, rxSpaces0, rxStr "total"],
     rxCat [rxStr "amount", rxSpaces1, rxStr "due"],
     rxCat [rxStr "balance", rxSpaces1, rxStr "due"],
     rxCat [rxStr "att", rxSpaces1, rxStr "betala"]]

/-- `_VAT_LINE_PATTERN` `\b(?:vat|moms|mva|tax|mwst|iva|gst)\b`. -/
def vatLineRx : Rx :=
  rxCat
    [.wb,
     rxAlts [rxStr "vat", rxStr "moms", rxStr "mva", rxStr "tax",
             rxStr "mwst", rxStr "iva", rxStr "gst"],
     .wb]

/-- `_EXCLUDING_LINE_PATTERN`
`\b(?:excl|exklusive|excluding|subtotal|sub[-\s]?total|netto|net)\b`. -/
def excludingLineRx : Rx :=
  rxCat
    [.wb,
     rxAlts
       [rxStr "excl", rxStr "exklusive", rxStr "excluding", rxStr "subtotal",
        rxCat [rxStr "sub", .opt (.cls fun c => c == '-' || isPySpace c),
               rxStr "total"],
        rxStr "netto", rxStr "net"],
     .wb]

/-- `_ROUNDING_LINE_PATTERN` `\b(?:rounding|avrund|rundning)\b`. -/
def roundingLineRx : Rx :=
  rxCat [.wb, rxAlts [rxStr "rounding", rxStr "avrund", rxStr "rundning"], .wb]

/-- `_DATE_LINE_PATTERN`: `\b\d{4}S\d{2}S\d{2}\b|\b\d{2}S\d{2}S\d{4}\b`
where `S` is the class of dash, slash or dot. -/
def dateLineRx : Rx :=
  let sep : Rx := .cls fun c => c == '-' || c == '/' || c == '.'
  let d2 : Rx := .seq rxDigit rxDigit
  let d4 : Rx := rxCat [rxDigit, rxDigit, rxDigit, rxDigit]
  .alt
    (rxCat [.wb, d4, sep, d2, sep, d2, .wb])
    (rxCat [.wb, d2, sep, d2, sep, d4, .wb])

/-! ### The anchored extraction engine
(`parsing/extractors/anchored_extractor.py`) -/

/-- `TextPosition`. -/
structure TextPosition where
  Line : ℕ
  Column : ℕ
  EndColumn : ℕ
  CharIndex : ℕ
deriving DecidableEq, Repr

/-- `TextPosition.Length`. -/
def TextPosition.Length (p : TextPosition) : ℕ :=
  p.EndColumn - p.Column

/-- `Anchor`, with its pattern already translated to the engine's AST. -/
structure RxAnchor where
  pattern : Rx
  BonusVotes : ℤ
  Description : String

/-- `AnchoredExtractor.TotalAmountAnchors`
(`anchored_extractor.py`, lines 88-105), in source order. -/
def TotalAmountAnchors : List RxAnchor :=
  [⟨rxCat [.opt (.seq (rxStr "grand") rxSpaces1), .wb, rxStr "total", .wb,
           rxSpaces0, .cls fun c => c == ':' || c == '：'], 4, "Total:"⟩,
   ⟨rxCat [.wb, rxStr "total", rxSpaces1, rxStr "due", .wb, rxSpaces0,
           rxColonOpt], 5, "Total Due"⟩,
   ⟨rxCat [rxStr "amount", rxSpaces1, rxStr "due", rxSpaces0, rxColonOpt],
     4, "Amount Due"⟩,
   ⟨rxCat [.wb, rxStr "total", rxSpaces1, rxStr "amount", .wb, rxSpaces0,
           rxColonOpt], 4, "Total Amount"⟩,
   ⟨rxCat [rxStr "amount", rxSpaces1, rxStr "paid", rxSpaces0, rxColonOpt],
     3, "Amount Paid"⟩,
   ⟨rxCat [rxStr "balance", rxSpaces1, rxStr "due", rxSpaces0, rxColonOpt],
     3, "Balance Due"⟩,
   ⟨rxCat [.wb, rxStr "total", .opt (rxChar 't'), .wb,
           .nla (.seq rxSpaces0
             (rxAlts [rxStr "exkl", rxStr "excl", rxStr "exklusive",
                      rxStr "vat", rxStr "moms", rxStr "tax"])),
           rxSpaces0, .opt (rxCat [rxStr "i", rxSpaces1, rxStr "sek"]),
           rxSpaces0, rxColonOpt], 4, "Totalt"⟩,
   ⟨rxCat [.wb, rxStr "att", rxSpaces1, rxStr "betala", .wb, rxSpaces0,
           rxColonOpt], 4, "Att betala"⟩,
   ⟨rxCat [.wb, rxStr "summa", .wb, rxSpaces0, rxColonOpt], 3, "Summa"⟩,
   ⟨rxCat [.wb, rxStr "belopp", .wb, rxSpaces0, rxColonOpt], 2, "Belopp"⟩,
   ⟨rxCat [.wb, rxStr "gesamtbetrag", .wb, rxSpaces0, rxColonOpt],
     4, "Gesamtbetrag"⟩,
   ⟨rxCat [.wb, rxStr "summe", .wb, rxSpaces0, rxColonOpt], 3, "Summe"⟩,
   ⟨rxCat [.wb, rxStr "endbetrag", .wb, rxSpaces0, rxColonOpt],
     3, "Endbetrag"⟩,
   ⟨rxCat [.wb, rxStr "montant", rxSpaces1, rxStr "total", .wb, rxSpaces0,
           rxColonOpt], 4, "Montant total"⟩,
   ⟨rxCat [.wb, rxStr "total", rxSpaces1, rxStr "ttc", .wb, rxSpaces0,
           rxColonOpt], 4, "Total TTC"⟩,
   ⟨rxCat [.wb, rxStr "total", .wb,
           .la (.cls fun c => c == '€' || c == '$' || c == '£')],
     2, "Total (no separator)"⟩]

/-- `AnchoredExtractor._build_line_index`: offsets one past each newline. -/
def buildLineIndexAux : List Char → ℕ → List ℕ
  | [], _ => []
  | c :: rest, i =>
    if c = '\n' then (i + 1) :: buildLineIndexAux rest (i + 1)
    else buildLineIndexAux rest (i + 1)

/-- `line_starts`, beginning with offset 0. -/
def buildLineIndex (s : List Char) : List ℕ :=
  0 :: buildLineIndexAux s 0

/-- `AnchoredExtractor._get_position`: the line is the last entry of
`line_starts` not exceeding the char index (the Python loop breaks at the
first larger start). -/
def getPosition (charIndex length : ℕ) (lineStarts : List ℕ) : TextPosition :=
  let prefixList := lineStarts.enum.takeWhile fun p => ¬ charIndex < p.2
  let line := (prefixList.getLast?.map (·.1)).getD 0
  let start := (prefixList.getLast?.map (·.2)).getD 0
  let column := charIndex - start
  ⟨line, column, column + length, charIndex⟩

/-- `FoundAnchor`: an anchor match with its position. -/
structure FoundAnchorPos where
  anchor : RxAnchor
  position : TextPosition

/-- `FoundValue`: a value match, the stripped value text and the raw
matched text. -/
structure FoundValuePos where
  value : List Char
  position : TextPosition
  matched : List Char

/-- `AnchoredExtractor._find_anchors`. -/
def findAnchors (s : List Char) (anchors : List RxAnchor)
    (lineStarts : List ℕ) : List FoundAnchorPos :=
  anchors.flatMap fun anchor =>
    (rxFindAll anchor.pattern s).map fun m =>
      ⟨anchor, getPosition m.1 m.2 lineStarts⟩

/-- `AnchoredExtractor._find_values`: the value is the stripped match
text. -/
def findValues (s : List Char) (valuePattern : Rx) (lineStarts : List ℕ) :
    List FoundValuePos :=
  (rxFindAll valuePattern s).map fun m =>
    ⟨stripEnds (sliceAt s m.1 m.2), getPosition m.1 m.2 lineStarts,
     sliceAt s m.1 m.2⟩

/-- `MaxHorizontalDistance`. -/
def MaxHorizontalDistance : ℤ := 30

/-- `MaxVerticalDistance`. -/
def MaxVerticalDistance : ℤ := 2

/-- `ColumnTolerance`. -/
def ColumnTolerance : ℤ := 10

/-- The `2**31 - 1` sentinel distance. -/
def maxSentinel : ℤ := 2147483647

/-- `AnchoredExtractor._get_relative_position`. -/
def getRelativePosition (a v : TextPosition) : AnchorPosition × ℤ :=
  let sameLineResult : Option (AnchorPosition × ℤ) :=
    if a.Line = v.Line then
      if a.EndColumn ≤ v.Column then
        let distance : ℤ := (v.Column : ℤ) - (a.EndColumn : ℤ)
        if distance ≤ MaxHorizontalDistance then some (.left, distance)
        else none
      else if v.EndColumn ≤ a.Column then
        let distance : ℤ := (a.Column : ℤ) - (v.EndColumn : ℤ)
        if distance ≤ MaxHorizontalDistance then some (.right, distance)
        else none
      else none
    else none
  match sameLineResult with
  | some r => r
  | none =>
    let lineDiff : ℤ := (v.Line : ℤ) - (a.Line : ℤ)
    let vertical : Option (AnchorPosition × ℤ) :=
      if |lineDiff| ≤ MaxVerticalDistance then
        if |(a.Column : ℤ) - (v.Column : ℤ)| ≤ ColumnTolerance ∨
            |(a.EndColumn : ℤ) - (v.Column : ℤ)| ≤ ColumnTolerance then
          if 0 < lineDiff then some (.above, lineDiff)
          else if lineDiff < 0 then some (.below, -lineDiff)
          else none
        else none
      else none
    match vertical with
    | some r => r
    | none =>
      let charDistance : ℤ := |(v.CharIndex : ℤ) - (a.CharIndex : ℤ)|
      if charDistance ≤ MaxHorizontalDistance * 3 then (.any, charDistance)
      else (.none_, maxSentinel)

/-- `AnchoredMatch`. -/
structure AnchoredMatchRec where
  Value : List Char
  BaseVotes : ℤ
  AnchorBonus : ℤ
  AnchorMatched : Option String
  Position : AnchorPosition
  Distance : ℤ
  MatchedText : List Char
  ValuePosition : TextPosition

/-- `AnchoredMatch.TotalVotes`. -/
def AnchoredMatchRec.TotalVotes (m : AnchoredMatchRec) : ℤ :=
  m.BaseVotes + m.AnchorBonus

/-- The best-anchor fold inside `FindAnchored`: keep the anchor with the
larger bonus, ties by strictly smaller distance. -/
def bestAnchorFold (v : FoundValuePos) (anchors : List FoundAnchorPos) :
    ℤ × Option String × AnchorPosition × ℤ :=
  anchors.foldl
    (fun best fa =>
      let (position, distance) := getRelativePosition fa.position v.position
      if position = .none_ then best
      else
        let bonus := calculateBonus fa.anchor.BonusVotes position distance
        if bonus > best.1 ∨ (bonus = best.1 ∧ distance < best.2.2.2) then
          (bonus, some fa.anchor.Description, position, distance)
        else best)
    (0, none, .none_, maxSentinel)

/-- `AnchoredExtractor.FindAnchored`. -/
def FindAnchored (s : List Char) (valuePattern : Rx)
    (anchors : List RxAnchor) (baseVotes : ℤ) : List AnchoredMatchRec :=
  let lineStarts := buildLineIndex s
  let foundAnchors := findAnchors s anchors lineStarts
  let foundValues := findValues s valuePattern lineStarts
  foundValues.map fun v =>
    let best := bestAnchorFold v foundAnchors
    ⟨v.value, baseVotes, best.1, best.2.1, best.2.2.1, best.2.2.2,
     v.matched, v.position⟩

/-! ### The anchored total-amount extractor
(`parsing/extractors/total/anchored_total_amount_extractor.py`) -/

/-- Python `text.split("\n")`: split at every newline, keeping empty
pieces. -/
def splitLines : List Char → List (List Char)
  | [] => [[]]
  | '\n' :: rest => [] :: splitLines rest
  | c :: rest =>
    match splitLines rest with
    | l :: ls => (c :: l) :: ls
    | [] => [[c]]

/-- `CurrencyProximityThreshold`. -/
def CurrencyProximityThreshold : ℤ := 12

/-- `_is_vat_percent_line`: nonempty, contains `%`, and matches the VAT
word pattern. -/
def isVatPercentLine (line : List Char) : Bool :=
  ¬ line.isEmpty && line.contains '%' && rxSearchBool vatLineRx line

/-- The first non-whitespace character of a window, if any. -/
def firstNonSpaceWindow (chars : List Char) : Option Char :=
  (chars.dropWhile isPySpace).head?

/-- `_is_percent_token`: the first non-space character in the two positions
after the token, or failing that in the two positions before it, is `%`. -/
def isPercentToken (line : List Char) (start len : ℕ) : Bool :=
  if line.isEmpty then false
  else
    match firstNonSpaceWindow ((line.drop (start + len)).take 2) with
    | some c => c == '%'
    | none =>
      match firstNonSpaceWindow ((line.take start).reverse.take 2) with
      | some c => c == '%'
      | none => false

/-- `_get_min_currency_distance` over `(start, length)` currency token
matches. -/
def minCurrencyDistance (currencyMatches : List (ℕ × ℕ))
    (valueIndex valueLength : ℕ) : ℤ :=
  currencyMatches.foldl
    (fun minD m =>
      let tokenStart : ℤ := m.1
      let tokenEnd : ℤ := (m.1 : ℤ) + m.2
      let valueStart : ℤ := valueIndex
      let valueEnd : ℤ := (valueIndex : ℤ) + valueLength
      let d :=
        if tokenEnd < valueStart then valueStart - tokenEnd
        else if tokenStart > valueEnd then tokenStart - valueEnd
        else 0
      if d < minD then d else minD)
    maxSentinel

/-- `_is_likely_year`: between 1900 and 2100 inclusive and integral. -/
def isLikelyYear (amount : PyDec) : Bool :=
  PyDec.ble (PyDec.ofInt 1900) amount && PyDec.ble amount (PyDec.ofInt 2100) &&
    amount.isIntegral

/-- `_find_anchor_lines`: the indices of lines matched by some anchor. -/
def findAnchorLines (lines : List (List Char)) (anchors : List RxAnchor) :
    List ℕ :=
  (lines.enum.filter fun p =>
    anchors.any fun a => rxSearchBool a.pattern p.2).map (·.1)

/-- `_get_line_text`: the line at an index, or empty out of range. -/
def getLineText (lines : List (List Char)) (lineIndex : ℕ) : List Char :=
  lines.getD lineIndex []

/-- `_get_anchor_line_bonus`: 3/2/1/0 by the minimal line distance to an
anchor line. -/
def getAnchorLineBonus (anchorLines : List ℕ) (lineIndex : ℕ) : ℤ :=
  match anchorLines.map (fun a => Int.natAbs ((a : ℤ) - (lineIndex : ℤ))) with
  | [] => 0
  | d :: rest =>
    let minDistance := rest.foldl min d
    if minDistance = 0 then 3
    else if minDistance = 1 ∨ minDistance = 2 then 2
    else if minDistance = 3 ∨ minDistance = 4 then 1
    else 0

/-- `_get_line_penalty`: 4 for a VAT-percent line, 3 for a tax word, 2 for
a subtotal/excluding word, 2 for a rounding word. -/
def getLinePenalty (line : List Char) : ℤ :=
  if line.isEmpty || (stripEnds line).isEmpty then 0
  else if isVatPercentLine line then 4
  else if rxSearchBool vatLineRx line then 3
  else if rxSearchBool excludingLineRx line then 2
  else if rxSearchBool roundingLineRx line then 2
  else 0

/-- `_is_excluded_line`. -/
def isExcludedLine (line : List Char) : Bool :=
  isVatPercentLine line || rxSearchBool vatLineRx line ||
    rxSearchBool excludingLineRx line || rxSearchBool roundingLineRx line

/-- `_has_local_exclusion`: an excluding/VAT/rounding word starting within
25 characters before the value column. -/
def hasLocalExclusion (line : List Char) (valueColumn : ℕ) : Bool :=
  if line.isEmpty || (stripEnds line).isEmpty then false
  else
    let safeColumn := min valueColumn line.length
    let pre := line.take safeColumn
    let starts :=
      (rxFindAll excludingLineRx pre ++ rxFindAll vatLineRx pre ++
        rxFindAll roundingLineRx pre).map (·.1)
    match starts with
    | [] => false
    | s0 :: rest =>
      let lastIndex := rest.foldl max s0
      (safeColumn : ℤ) - (lastIndex : ℤ) ≤ 25

/-- `_get_currency_proximity_bonus`: 2 within the threshold, 1 within twice
the threshold (distances measured from the token's start index). -/
def getCurrencyProximityBonus (currencyTokens : List (ℕ × ℕ))
    (valuePosition : TextPosition) : ℤ :=
  if currencyTokens.isEmpty then 0
  else
    let valueStart : ℤ := valuePosition.CharIndex
    let valueEnd : ℤ := (valuePosition.CharIndex : ℤ) + valuePosition.Length
    let minD := currencyTokens.foldl
      (fun m t =>
        let idx : ℤ := t.1
        let d :=
          if idx < valueStart then valueStart - idx
          else if idx > valueEnd then idx - valueEnd
          else 0
        if d < m then d else m)
      maxSentinel
    if minD ≤ CurrencyProximityThreshold then 2
    else if minD ≤ CurrencyProximityThreshold * 2 then 1
    else 0

/-- The candidate loop of `_extract_best_amount_from_line`: each amount
token that passes the percent, range, currency-distance and year filters,
as `(amount, stripped text, currency distance)`. -/
def lineAmountCandidates (line : List Char) (locale : Locale)
    (currencyMatches : List (ℕ × ℕ)) : List (PyDec × List Char × ℤ) :=
  (rxFindAll amountTokenRx line).filterMap fun m =>
    if isPercentToken line m.1 m.2 then none
    else
      let amountText := stripEnds (sliceAt line m.1 m.2)
      match ParseAmountCore amountText locale with
      | none => none
      | some amount =>
        if PyDec.ble amount (PyDec.ofInt 0) ∨
            PyDec.ble (PyDec.ofInt 10000000) amount then none
        else
          let distance :=
            if currencyMatches.isEmpty then 0
            else minCurrencyDistance currencyMatches m.1 m.2
          if ¬ currencyMatches.isEmpty ∧
              distance > CurrencyProximityThreshold then none
          else if currencyMatches.isEmpty ∧ isLikelyYear amount then none
          else some (amount, amountText, distance)

/-- Strictly better under the sort key `(-amount, distance)` (Python's
stable sort then index 0: the first candidate wins ties). -/
def betterAmountCandidate (cand best : PyDec × List Char × ℤ) : Bool :=
  PyDec.blt best.1 cand.1 || (PyDec.beqv best.1 cand.1 && cand.2.2 < best.2.2)

/-- `_extract_best_amount_from_line`. -/
def extractBestAmountFromLine (line : List Char) (locale : Locale) :
    Option (PyDec × List Char) :=
  if isVatPercentLine line then none
  else
    let currencyMatches := rxFindAll currencyTokenRx line
    if currencyMatches.isEmpty && rxSearchBool dateLineRx line then none
    else
      match lineAmountCandidates line locale currencyMatches with
      | [] => none
      | c0 :: rest =>
        let best := rest.foldl
          (fun b c => if betterAmountCandidate c b then c else b) c0
        some (best.1, best.2.1)

/-- `_add_line_candidates`: the candidates contributed by one neighbour
line, as `(amount, stripped token text, line distance, line)`.  The raw
token text is parsed; the stripped one is recorded. -/
def addLineCandidates (lines : List (List Char)) (lineIndex : ℤ)
    (lineDistance : ℕ) (locale : Locale) :
    List (PyDec × List Char × ℕ × List Char) :=
  if lineIndex < 0 ∨ (lines.length : ℤ) ≤ lineIndex then []
  else
    let line := getLineText lines lineIndex.toNat
    if isVatPercentLine line then []
    else
      let currencyMatches := rxFindAll currencyTokenRx line
      if currencyMatches.isEmpty && rxSearchBool dateLineRx line then []
      else
        (rxFindAll amountTokenRx line).filterMap fun m =>
          if isPercentToken line m.1 m.2 then none
          else
            match ParseAmountCore (sliceAt line m.1 m.2) locale with
            | none => none
            | some amount =>
              if PyDec.ble amount (PyDec.ofInt 0) ∨
                  PyDec.ble (PyDec.ofInt 10000000) amount then none
              else if ¬ currencyMatches.isEmpty ∧
                  minCurrencyDistance currencyMatches m.1 m.2 >
                    CurrencyProximityThreshold then none
              else if currencyMatches.isEmpty ∧ isLikelyYear amount then none
              else
                some (amount, stripEnds (sliceAt line m.1 m.2), lineDistance,
                  line)

/-- `TotalDueSearchWindow` offsets `1..6`. -/
def totalDueOffsets : List ℕ := [1, 2, 3, 4, 5, 6]

/-- The line loop of `_try_extract_total_due_from_block`: an inline match
on a total-due line returns immediately (`Except.error` models the early
`return`); otherwise its neighbour lines contribute candidates. -/
def totalDueScan (lines : List (List Char)) (locale : Locale) :
    List (ℕ × List Char) → List (PyDec × List Char × ℕ × List Char) →
    Except ExtractionResult (List (PyDec × List Char × ℕ × List Char))
  | [], cands => .ok cands
  | (i, line) :: rest, cands =>
    if ¬ rxSearchBool totalDueLineRx line then totalDueScan lines locale rest cands
    else
      let inline :=
        if rxSearchBool amountTokenRx line then
          extractBestAmountFromLine line locale
        else none
      match inline with
      | some (amount, raw) =>
        .error ⟨some (String.mk raw),
          if PyDec.ble (PyDec.ofInt 1000) amount then 6 else 5,
          some (String.mk (stripEnds line))⟩
      | none =>
        let additions := totalDueOffsets.flatMap fun offset =>
          addLineCandidates lines ((i : ℤ) - offset) offset locale ++
            addLineCandidates lines ((i : ℤ) + offset) offset locale
        totalDueScan lines locale rest (cands ++ additions)

/-- Strictly better under the block sort key `(-amount, line distance)`. -/
def betterBlockCandidate (cand best : PyDec × List Char × ℕ × List Char) :
    Bool :=
  PyDec.blt best.1 cand.1 ||
    (PyDec.beqv best.1 cand.1 && cand.2.2.1 < best.2.2.1)

/-- `_try_extract_total_due_from_block`. -/
def tryExtractTotalDueFromBlock (context : ExtractionContext) :
    Option ExtractionResult :=
  let lines := splitLines context.Text.data
  match totalDueScan lines context.Locale lines.enum [] with
  | .error r => some r
  | .ok [] => none
  | .ok (c0 :: rest) =>
    let cands := c0 :: rest
    let filtered := cands.filter fun c => ¬ isExcludedLine c.2.2.2
    match (if filtered.isEmpty then cands else filtered) with
    | [] => none
    | p0 :: prest =>
      let best := prest.foldl
        (fun b c => if betterBlockCandidate c b then c else b) p0
      some ⟨some (String.mk best.2.1),
        if PyDec.ble (PyDec.ofInt 1000) best.1 then 6 else 5,
        some (String.mk (stripEnds best.2.2.2))⟩

/-- `AnchoredTotalAmountExtractor.ExtractAll`
(`anchored_total_amount_extractor.py`, lines 39-87). -/
def extractAllTotalAmount (context : ExtractionContext) :
    List ExtractionResult :=
  let results :=
    match tryExtractTotalDueFromBlock context with
    | some r => if r.HasValue then [r] else []
    | none => []
  let foundMatches :=
    FindAnchored context.Text.data amountTokenRx TotalAmountAnchors 2
  if foundMatches.isEmpty then results
  else
    let currencyTokens := rxFindAll currencyTokenRx context.Text.data
    let lines := splitLines context.Text.data
    let anchorLines := findAnchorLines lines TotalAmountAnchors
    results ++ foundMatches.filterMap fun m =>
      if m.AnchorBonus ≤ (0 : ℤ) then none
      else
        match ParseAmountCore m.Value context.Locale with
        | none => none
        | some amount =>
          if PyDec.ble amount (PyDec.ofInt 0) ∨
              PyDec.ble (PyDec.ofInt 10000000) amount then none
          else
            let lineText := getLineText lines m.ValuePosition.Line
            let lineBonus := getAnchorLineBonus anchorLines m.ValuePosition.Line
            let penalty := getLinePenalty lineText
            if m.AnchorBonus ≤ (0 : ℤ) ∧ lineBonus = 0 then none
            else if isPercentToken lineText m.ValuePosition.Column
                m.ValuePosition.Length then none
            else if hasLocalExclusion lineText m.ValuePosition.Column then none
            else
              let bonus := getCurrencyProximityBonus currencyTokens
                m.ValuePosition
              let largeBonus : ℤ :=
                if PyDec.ble (PyDec.ofInt 1000) amount then 1 else 0
              let votes := m.TotalVotes + bonus + lineBonus + largeBonus -
                penalty
              if votes ≤ 0 then none
              else
                some ⟨some (String.mk m.Value), votes,
                  some (String.mk
                    (if m.MatchedText.isEmpty then m.Value else m.MatchedText))⟩

/-! ### The XY-cut segmenter (`textlayout/parser.py`)

Python indexes `matrix[r][col]` only in range; the embedding reads cells
with `getD`, whose `' '` default never fires on the in-range indices the
algorithm uses. -/

/-- `text_to_matrix`: split on newline and right-pad every line with spaces
to the maximum line length (`max(..., default=0)`). -/
def textToMatrix (text : String) : List (List Char) :=
  let lines := splitLines text.data
  let maxWidth := (lines.map List.length).foldr max 0
  lines.map fun line => line ++ List.replicate (maxWidth - line.length) ' '

/-- `is_blank_row`: every character of the row is a space. -/
def isBlankRow (m : List (List Char)) (r : ℕ) : Bool :=
  (m.getD r []).all fun c => c == ' '

/-- `is_blank_col`: every character of the column is a space within rows
`startRow..endRow` (inclusive). -/
def isBlankCol (m : List (List Char)) (col startRow endRow : ℕ) : Bool :=
  (List.range' startRow (endRow + 1 - startRow)).all fun r =>
    ((m.getD r []).getD col ' ') == ' '

/-- The row loop of `split_horizontal`: `rows` are the remaining row
indices, `(inSection, sectionStart)` the loop state; an open section is
closed at the last row after the loop. -/
def splitHorizontalAux (m : List (List Char)) :
    List ℕ → Bool → ℕ → List (ℕ × ℕ)
  | [], inSection, sectionStart =>
    if inSection then [(sectionStart, m.length - 1)] else []
  | r :: rest, inSection, sectionStart =>
    if isBlankRow m r then
      if inSection then
        (sectionStart, r - 1) :: splitHorizontalAux m rest false sectionStart
      else splitHorizontalAux m rest false sectionStart
    else
      if inSection then splitHorizontalAux m rest true sectionStart
      else splitHorizontalAux m rest true r

/-- `split_horizontal` (`parser.py`, lines 29-50). -/
def splitHorizontal (m : List (List Char)) : List (ℕ × ℕ) :=
  if m.isEmpty then []
  else splitHorizontalAux m (List.range m.length) false 0

/-- The column loop of `find_vertical_gaps`: a blank-column run is recorded
as a gap when it closes at a non-blank column with width at least
`minGap`; a run still open at the end is not recorded. -/
def findVerticalGapsAux (m : List (List Char)) (startRow endRow minGap : ℕ) :
    List ℕ → Bool → ℕ → List (ℕ × ℕ)
  | [], _, _ => []
  | c :: rest, inGap, gapStart =>
    if isBlankCol m c startRow endRow then
      if inGap then
        findVerticalGapsAux m startRow endRow minGap rest true gapStart
      else findVerticalGapsAux m startRow endRow minGap rest true c
    else
      if inGap then
        if minGap ≤ c - gapStart then
          (gapStart, c - 1) ::
            findVerticalGapsAux m startRow endRow minGap rest false gapStart
        else findVerticalGapsAux m startRow endRow minGap rest false gapStart
      else findVerticalGapsAux m startRow endRow minGap rest false gapStart

/-- `find_vertical_gaps` (`parser.py`, lines 53-75). -/
def findVerticalGaps (m : List (List Char)) (startRow endRow minGap : ℕ) :
    List (ℕ × ℕ) :=
  if m.isEmpty || (m.headD []).isEmpty then []
  else
    findVerticalGapsAux m startRow endRow minGap
      (List.range (m.headD []).length) false 0

/-- `find_text_bounds` (`parser.py`, lines 78-88): the minimal and maximal
column of a non-blank character over rows `startRow..endRow` and columns
`startCol..endCol-1` (the Python `range(start_col, end_col)` upper bound is
exclusive), or `none` when the region is blank. -/
def findTextBounds (m : List (List Char))
    (startRow endRow startCol endCol : ℕ) : Option (ℕ × ℕ) :=
  match (List.range' startCol (endCol - startCol)).filter
      (fun c => ¬ isBlankCol m c startRow endRow) with
  | [] => none
  | c :: rest => some (rest.foldl min c, rest.foldl max c)

/-- The gap loop of `split_vertical`: for each gap, tighten the bounds of
the scan range `[prevEnd, gapStart)`; after the last gap, the final range
`[prevEnd, width)` when `prevEnd < width`. -/
def splitVerticalAux (m : List (List Char)) (startRow endRow width : ℕ) :
    List (ℕ × ℕ) → ℕ → List (ℕ × ℕ)
  | [], prevEnd =>
    if prevEnd < width then
      match findTextBounds m startRow endRow prevEnd width with
      | some b => [b]
      | none => []
    else []
  | (gapStart, gapEnd) :: rest, prevEnd =>
    let tail := splitVerticalAux m startRow endRow width rest (gapEnd + 1)
    match findTextBounds m startRow endRow prevEnd gapStart with
    | some b => b :: tail
    | none => tail

/-- `split_vertical` (`parser.py`, lines 91-120). -/
def splitVertical (m : List (List Char)) (startRow endRow minGap : ℕ) :
    List (ℕ × ℕ) :=
  if m.isEmpty || (m.headD []).isEmpty then []
  else
    let width := (m.headD []).length
    match findVerticalGaps m startRow endRow minGap with
    | [] =>
      match findTextBounds m startRow endRow 0 width with
      | some b => [b]
      | none => []
    | g :: gaps => splitVerticalAux m startRow endRow width (g :: gaps) 0

/-- The rectangles of the XY-cut: every horizontal section paired with each
of its tightened column ranges, as `(startRow, endRow, minCol, maxCol)`. -/
def xyCutRectangles (m : List (List Char)) (minGap : ℕ) :
    List (ℕ × ℕ × ℕ × ℕ) :=
  (splitHorizontal m).flatMap fun s =>
    (splitVertical m s.1 s.2 minGap).map fun c => (s.1, s.2, c.1, c.2)

/-- A cell lies in a rectangle (rows and columns inclusive). -/
def rectContains (R : ℕ × ℕ × ℕ × ℕ) (r c : ℕ) : Prop :=
  R.1 ≤ r ∧ r ≤ R.2.1 ∧ R.2.2.1 ≤ c ∧ c ≤ R.2.2.2

/-- The cell `(r, c)` exists in the matrix and holds a non-blank
character. -/
def cellNonBlank (m : List (List Char)) (r c : ℕ) : Prop :=
  r < m.length ∧ c < (m.getD r []).length ∧ (m.getD r []).getD c ' ' ≠ ' '

end TextLayout

-- ===== Theorems =====

namespace TextLayout

/-- Helper: `roundHalfEven q` is a nearest integer to `q`. -/
theorem roundHalfEven_nearest (q : ℚ) (z : ℤ) :
    |((roundHalfEven q : ℤ) : ℚ) - q| ≤ |(z : ℚ) - q| := by
  have hf : ((⌊q⌋ : ℤ) : ℚ) ≤ q := Int.floor_le q
  have hf1 : q < ((⌊q⌋ : ℤ) : ℚ) + 1 := Int.lt_floor_add_one q
  have hz : (z : ℚ) ≤ ((⌊q⌋ : ℤ) : ℚ) ∨ ((⌊q⌋ : ℤ) : ℚ) + 1 ≤ (z : ℚ) := by
    rcases le_or_lt z ⌊q⌋ with h | h
    · left; exact_mod_cast h
    · right; exact_mod_cast h
  unfold roundHalfEven
  split
  · rename_i hlt
    rcases hz with h | h
    · rw [abs_of_nonpos (by linarith), abs_of_nonpos (by linarith)]; linarith
    · rw [abs_of_nonpos (by linarith), abs_of_nonneg (by linarith)]; linarith
  · rename_i hge
    push_neg at hge
    split
    · rename_i hgt
      push_cast
      rcases hz with h | h
      · rw [abs_of_nonneg (by linarith), abs_of_nonpos (by linarith)]; linarith
      · rw [abs_of_nonneg (by linarith), abs_of_nonneg (by linarith)]; linarith
    · rename_i hle
      push_neg at hle
      have hhalf : q - ((⌊q⌋ : ℤ) : ℚ) = 1/2 := le_antisymm hle hge
      split
      · rcases hz with h | h
        · rw [abs_of_nonpos (by linarith), abs_of_nonpos (by linarith)]; linarith
        · rw [abs_of_nonpos (by linarith), abs_of_nonneg (by linarith)]; linarith
      · push_cast
        rcases hz with h | h
        · rw [abs_of_nonneg (by linarith), abs_of_nonpos (by linarith)]; linarith
        · rw [abs_of_nonneg (by linarith), abs_of_nonneg (by linarith)]; linarith

/-- Helper: the integer half-even rounding computes the rational one. -/
theorem roundHalfEvenInt_eq_roundHalfEven (num : ℤ) (d : ℕ) (hd : 0 < d) :
    roundHalfEvenInt num d = roundHalfEven ((num : ℚ) / d) := by
  have hdZ : (0 : ℤ) < (d : ℤ) := by exact_mod_cast hd
  have hdQ : (0 : ℚ) < (d : ℚ) := by exact_mod_cast hd
  have hfl : ⌊((num : ℚ) / (d : ℚ))⌋ = num / (d : ℤ) :=
    Rat.floor_intCast_div_natCast num d
  have hfd : num.fdiv (d : ℤ) = num / (d : ℤ) := Int.fdiv_eq_ediv num hdZ.le
  have hfm : num.fmod (d : ℤ) = num % (d : ℤ) := Int.fmod_eq_emod num hdZ.le
  have key : (num : ℚ) / d - ((num / (d : ℤ) : ℤ) : ℚ) =
      ((num % (d : ℤ) : ℤ) : ℚ) / (d : ℚ) := by
    rw [Int.emod_def]
    push_cast
    field_simp
  have k1 : ((num : ℚ) / d - ((num / (d : ℤ) : ℤ) : ℚ) < 1/2) ↔
      2 * (num % (d : ℤ)) < (d : ℤ) := by
    rw [key, div_lt_div_iff₀ hdQ (by norm_num : (0:ℚ) < 2)]
    constructor
    · intro h
      have h2 : ((2 * (num % (d : ℤ)) : ℤ) : ℚ) < (((d : ℤ) : ℤ) : ℚ) := by
        push_cast
        push_cast at h
        linarith
      exact_mod_cast h2
    · intro h
      have h2 : ((2 * (num % (d : ℤ)) : ℤ) : ℚ) < ((d : ℤ) : ℚ) := by
        exact_mod_cast h
      push_cast at h2 ⊢
      linarith
  have k2 : (1/2 < (num : ℚ) / d - ((num / (d : ℤ) : ℤ) : ℚ)) ↔
      (d : ℤ) < 2 * (num % (d : ℤ)) := by
    rw [key, div_lt_div_iff₀ (by norm_num : (0:ℚ) < 2) hdQ]
    constructor
    · intro h
      have h2 : ((d : ℤ) : ℚ) < ((2 * (num % (d : ℤ)) : ℤ) : ℚ) := by
        push_cast
        push_cast at h
        linarith
      exact_mod_cast h2
    · intro h
      have h2 : ((d : ℤ) : ℚ) < ((2 * (num % (d : ℤ)) : ℤ) : ℚ) := by
        exact_mod_cast h
      push_cast at h2 ⊢
      linarith
  unfold roundHalfEvenInt roundHalfEven
  rw [hfd, hfm, hfl]
  simp only [k1, k2]

/-- Helper: the scaled multiplier table is the rational one times 30. -/
theorem bonusMultiplier30_eq (position : AnchorPosition) (d : ℤ) (b : ℤ) :
    (b : ℚ) * bonusMultiplier position d =
      ((b * bonusMultiplier30 position d : ℤ) : ℚ) / ((30 : ℕ) : ℚ) := by
  cases position with
  | left =>
    unfold bonusMultiplier bonusMultiplier30
    by_cases hd : d ≤ 3
    · simp only [if_pos hd]
      push_cast
      field_simp
    · simp only [if_neg hd]
      push_cast [Int.cast_max]
      rw [mul_div_assoc]
      congr 1
      rw [← max_div_div_right (by norm_num : (0:ℚ) ≤ 30)]
      congr 1
      · norm_num
      · rw [sub_div]
        norm_num
  | above =>
    unfold bonusMultiplier bonusMultiplier30
    by_cases hd : d = 1
    · simp only [if_pos hd]; push_cast; ring
    · simp only [if_neg hd]; push_cast; ring
  | right => unfold bonusMultiplier bonusMultiplier30; push_cast; ring
  | below => unfold bonusMultiplier bonusMultiplier30; push_cast; ring
  | any => unfold bonusMultiplier bonusMultiplier30; push_cast; ring
  | none_ => unfold bonusMultiplier bonusMultiplier30; push_cast; ring

/-- C8: for every anchor bonus-vote count, relative position and distance,
the anchor bonus is `0` when there is no relation and otherwise equals the
bonus votes times the position multiplier (Left: 1.0 if distance ≤ 3 else
max(0.5, 1 − distance/30); Above: 0.9 if distance = 1 else 0.7; Right: 0.4;
Below: 0.3; Any: 0.3) rounded to a nearest integer (ties broken to even, as
Python's `round` does). -/
theorem calculateBonus_bonus_formula (b : ℤ) (position : AnchorPosition)
    (d : ℤ) (z : ℤ) :
    calculateBonus b .none_ d = 0 ∧
    |((calculateBonus b position d : ℤ) : ℚ) -
        (b : ℚ) * bonusMultiplier position d| ≤
      |(z : ℚ) - (b : ℚ) * bonusMultiplier position d| := by
  refine ⟨rfl, ?_⟩
  by_cases hpos : position = .none_
  · subst hpos
    simp [calculateBonus, bonusMultiplier]
  · rw [calculateBonus, if_neg hpos]
    rw [show (30 : ℤ) = ((30 : ℕ) : ℤ) from rfl,
      roundHalfEvenInt_eq_roundHalfEven _ 30 (by norm_num)]
    rw [bonusMultiplier30_eq]
    exact roundHalfEven_nearest _ z

/-- C2: after `_calculate_missing_vat_values`, whenever both the VAT amount
and the total amount are present, the VAT amount is strictly below the total
(a VAT amount ≥ total is discarded by the final guard).  `Parse` returns the
invoice unchanged in these fields after this call, so this is the returned
invoice's invariant. -/
theorem vatAmount_lt_totalAmount (invoice : ParsedInvoice) (v t : ℚ)
    (hv : (calculateMissingVatValues invoice).VatAmount = some v)
    (ht : (calculateMissingVatValues invoice).TotalAmount = some t) :
    v < t := by
  unfold calculateMissingVatValues at hv ht
  generalize applyVatBranchChain invoice = inv at hv ht
  unfold vatConsistencyGuard at hv ht
  by_cases hguard : inv.VatAmount.isSome ∧ inv.TotalAmount.isSome ∧
      inv.VatAmount.getD 0 ≥ inv.TotalAmount.getD 0
  · rw [if_pos hguard] at hv
    simp at hv
  · rw [if_neg hguard] at hv ht
    push_neg at hguard
    have h1 : inv.VatAmount.isSome = true := by simp [hv]
    have h2 : inv.TotalAmount.isSome = true := by simp [ht]
    have := hguard h1 h2
    rw [hv, ht] at this
    simpa using this

/-- C2 witness. -/
theorem vatAmount_lt_totalAmount_witness : (20 : ℚ) < 100 :=
  vatAmount_lt_totalAmount
    { TotalAmount := some 100, VatAmount := some 20 } 20 100 (by decide) (by decide)

/-- C3 counterexample: an invoice whose subtotal (100), VAT amount (50) and
total (120) are all parsed independently passes through
`_calculate_missing_vat_values` unchanged, so the returned total differs
from subtotal + VAT by 30, far beyond ±0.01. -/
theorem total_not_sum_counterexample :
    ((calculateMissingVatValues
        { TotalAmount := some 120, TotalExcludingVat := some 100,
          VatAmount := some 50 }).TotalExcludingVat = some 100 ∧
      (calculateMissingVatValues
        { TotalAmount := some 120, TotalExcludingVat := some 100,
          VatAmount := some 50 }).VatAmount = some 50 ∧
      (calculateMissingVatValues
        { TotalAmount := some 120, TotalExcludingVat := some 100,
          VatAmount := some 50 }).TotalAmount = some 120) ∧
    ¬ |(120 : ℚ) - (100 + 50)| ≤ 1/100 := by
  refine ⟨⟨?_, ?_, ?_⟩, by norm_num⟩ <;> decide

/-- C3 amended: when the subtotal and the VAT amount are present and the
total amount is absent before the derivation step, the returned total
equals subtotal + VAT exactly (hence within ±0.01). -/
theorem total_eq_subtotal_add_vat (invoice : ParsedInvoice) (a v : ℚ)
    (h1 : invoice.TotalAmount = none)
    (h2 : invoice.TotalExcludingVat = some a)
    (h3 : invoice.VatAmount = some v) :
    (calculateMissingVatValues invoice).TotalAmount = some (a + v) := by
  unfold calculateMissingVatValues applyVatBranchChain
  simp only [h1, h2, h3, Option.isSome_none, Option.isSome_some, Option.isNone_none,
    Option.getD_some, Bool.false_eq_true, false_and, and_false, if_false,
    Option.isNone_some, and_true, true_and, if_true]
  unfold vatConsistencyGuard
  split <;> rfl

/-- C3 amended witness. -/
theorem total_eq_subtotal_add_vat_witness :
    (calculateMissingVatValues
      { TotalExcludingVat := some 100, VatAmount := some 50 }).TotalAmount =
      some 150 := by
  have h := total_eq_subtotal_add_vat
    { TotalExcludingVat := some 100, VatAmount := some 50 } 100 50 rfl rfl rfl
  norm_num at h
  exact h

/-- C9: when the extraction has at least one variant and the inner parse
raises, `ParseInvoice` swallows the exception and returns an invoice whose
raw text is the extraction's best text, with confidence 0 and warnings
`["ParsingError"]`. -/
theorem parseInvoice_catches_exception (e : PdfExtractionResult)
    (h : e.Variants ≠ []) :
    ParseInvoice (some e) (.error ()) =
      { RawText := e.BestText, Confidence := 0, Warnings := ["ParsingError"] } := by
  show (if e.Variants = [] then _ else _) = _
  rw [if_neg h]

/-- C9 witness. -/
theorem parseInvoice_catches_exception_witness :
    ParseInvoice (some ⟨[⟨"txt", "default", 1/2⟩]⟩) (.error ()) =
      { RawText := some "txt", Confidence := 0, Warnings := ["ParsingError"] } := by
  rw [parseInvoice_catches_exception ⟨[⟨"txt", "default", 1/2⟩]⟩ (by decide)]
  rfl

/-- C10: `with_text` replaces only the text body; the lines, locale and the
three hint fields are those of the original context (so per-variant contexts
built by the aggregator keep the original line list). -/
theorem with_text_replaces_only_text (c : ExtractionContext) (t : String) :
    (c.with_text t).Text = t ∧ (c.with_text t).Lines = c.Lines ∧
    (c.with_text t).Locale = c.Locale ∧
    (c.with_text t).SenderHint = c.SenderHint ∧
    (c.with_text t).EmailBodyHint = c.EmailBodyHint ∧
    (c.with_text t).EmailSubject = c.EmailSubject :=
  ⟨rfl, rfl, rfl, rfl, rfl, rfl⟩

/-- Helper: `addVote` never returns the empty list. -/
theorem addVote_ne_nil (l : List (String × ℤ)) (k : String) (v : ℤ) :
    addVote l k v ≠ [] := by
  cases l with
  | nil => simp [addVote]
  | cons p rest =>
    obtain ⟨k0, v0⟩ := p
    unfold addVote
    split <;> simp

/-- Helper: the vote fold yields the empty dictionary exactly when it
started empty and every result was skipped. -/
theorem tallyFold_eq_nil (results : List ExtractionResult) :
    ∀ acc, (results.foldl tallyStep acc = [] ↔
      acc = [] ∧ ∀ r ∈ results, r.HasValue = false) := by
  induction results with
  | nil => intro acc; simp
  | cons r rest ih =>
    intro acc
    rw [List.foldl_cons, ih]
    constructor
    · rintro ⟨h1, h2⟩
      unfold tallyStep at h1
      by_cases hr : r.HasValue
      · rw [if_pos hr] at h1
        exact absurd h1 (addVote_ne_nil _ _ _)
      · rw [if_neg hr] at h1
        refine ⟨h1, fun x hx => ?_⟩
        rcases List.mem_cons.mp hx with h | h
        · subst h; simpa using hr
        · exact h2 x h
    · rintro ⟨h1, h2⟩
      have hr : r.HasValue = false := h2 r (List.mem_cons_self r rest)
      refine ⟨?_, fun x hx => h2 x (List.mem_cons_of_mem r hx)⟩
      unfold tallyStep
      rw [hr]
      simpa using h1

/-- Helper: `keyTotal` over a cons cell. -/
theorem keyTotal_cons (k0 : String) (v0 : ℤ) (rest : List (String × ℤ))
    (k : String) :
    keyTotal ((k0, v0) :: rest) k =
      (if k0 = k then v0 else 0) + keyTotal rest k := by
  unfold keyTotal
  rw [List.filter_cons]
  by_cases h : k0 = k
  · simp [h]
  · simp [h]

/-- Helper: `votesFor` over a cons cell. -/
theorem votesFor_cons (r : ExtractionResult) (rest : List ExtractionResult)
    (k : String) :
    votesFor (r :: rest) k =
      (if r.HasValue && r.Value == some k then r.Votes else 0) +
        votesFor rest k := by
  unfold votesFor
  rw [List.filter_cons]
  by_cases h : (r.HasValue && r.Value == some k) = true
  · simp [h]
  · simp [h]

/-- Helper: a surviving result carries some value, and `getD ""` recovers
it. -/
theorem hasValue_getD (r : ExtractionResult) (hr : r.HasValue = true) :
    r.Value = some (r.Value.getD "") := by
  unfold ExtractionResult.HasValue at hr
  have h1 : r.Value.isSome := ((Bool.and_eq_true _ _).mp hr).1
  obtain ⟨s, hs⟩ := Option.isSome_iff_exists.mp h1
  rw [hs]
  rfl

/-- Helper: a surviving result has strictly positive votes. -/
theorem hasValue_votes_pos (r : ExtractionResult) (hr : r.HasValue = true) :
    0 < r.Votes := by
  unfold ExtractionResult.HasValue at hr
  have h2 := ((Bool.and_eq_true _ _).mp hr).2
  simpa using h2

/-- Helper: `addVote` adds `v` to the running total of key `k` and leaves
every other key total unchanged. -/
theorem keyTotal_addVote (l : List (String × ℤ)) (k k' : String) (v : ℤ) :
    keyTotal (addVote l k v) k' = keyTotal l k' + (if k = k' then v else 0) := by
  induction l with
  | nil =>
    show keyTotal [(k, v)] k' = keyTotal [] k' + _
    rw [keyTotal_cons]
    unfold keyTotal
    simp
  | cons p rest ih =>
    obtain ⟨k0, v0⟩ := p
    unfold addVote
    by_cases h0 : k0 = k
    · rw [if_pos h0]
      rw [keyTotal_cons, keyTotal_cons]
      by_cases h1 : k0 = k'
      · rw [if_pos h1, if_pos h1, if_pos (h0 ▸ h1)]
        ring
      · rw [if_neg h1, if_neg h1, if_neg (h0 ▸ h1)]
        ring
    · rw [if_neg h0]
      rw [keyTotal_cons, keyTotal_cons, ih]
      ring

/-- Helper: folding the vote accounting adds exactly the surviving votes of
each key to the accumulator's totals. -/
theorem keyTotal_tallyFold (results : List ExtractionResult) :
    ∀ acc k, keyTotal (results.foldl tallyStep acc) k =
      keyTotal acc k + votesFor results k := by
  induction results with
  | nil => intro acc k; simp [votesFor]
  | cons r rest ih =>
    intro acc k
    rw [List.foldl_cons, ih, votesFor_cons]
    unfold tallyStep
    by_cases hr : r.HasValue
    · rw [if_pos hr, keyTotal_addVote]
      by_cases hk : r.Value.getD "" = k
      · have hcond : (r.HasValue && r.Value == some k) = true := by
          rw [hr, hasValue_getD r hr, hk]
          simp
        rw [if_pos hk, if_pos hcond]
        ring
      · have hcond : ¬ (r.HasValue && r.Value == some k) = true := by
          intro hcontra
          have h2 := ((Bool.and_eq_true _ _).mp hcontra).2
          have h3 : r.Value = some k := by simpa using h2
          have h4 := hasValue_getD r hr
          rw [h4] at h3
          exact hk (by injection h3)
        rw [if_neg hk, if_neg hcond]
        ring
    · rw [if_neg hr]
      have hcond : ¬ (r.HasValue && r.Value == some k) = true := by
        intro hcontra
        exact hr ((Bool.and_eq_true _ _).mp hcontra).1
      rw [if_neg hcond]
      ring

/-- Helper: the key list of `addVote` is the old key list, extended by `k`
when `k` was absent. -/
theorem addVote_keys (l : List (String × ℤ)) (k : String) (v : ℤ) :
    (addVote l k v).map Prod.fst =
      if k ∈ l.map Prod.fst then l.map Prod.fst else l.map Prod.fst ++ [k] := by
  induction l with
  | nil => simp [addVote]
  | cons p rest ih =>
    obtain ⟨k0, v0⟩ := p
    unfold addVote
    by_cases h0 : k0 = k
    · subst h0
      simp
    · rw [if_neg h0]
      simp only [List.map_cons]
      rw [ih]
      have hne : ¬ k = k0 := fun h => h0 h.symm
      by_cases hmem : k ∈ rest.map Prod.fst
      · rw [if_pos hmem, if_pos (by simp [hmem])]
      · rw [if_neg hmem, if_neg (by simp [hne, hmem])]
        simp

/-- Helper: `addVote` preserves distinctness of keys. -/
theorem addVote_nodup (l : List (String × ℤ)) (k : String) (v : ℤ)
    (h : (l.map Prod.fst).Nodup) : ((addVote l k v).map Prod.fst).Nodup := by
  rw [addVote_keys]
  by_cases hmem : k ∈ l.map Prod.fst
  · rw [if_pos hmem]; exact h
  · rw [if_neg hmem]
    rw [List.nodup_append]
    exact ⟨h, List.nodup_singleton k, by
      intro x hx hk
      rw [List.mem_singleton] at hk
      subst hk
      exact hmem hx⟩

/-- Helper: the vote fold preserves distinctness of keys. -/
theorem tallyFold_nodup (results : List ExtractionResult) :
    ∀ acc, (acc.map Prod.fst).Nodup →
      (((results.foldl tallyStep acc).map Prod.fst)).Nodup := by
  induction results with
  | nil => intro acc h; simpa using h
  | cons r rest ih =>
    intro acc h
    rw [List.foldl_cons]
    apply ih
    unfold tallyStep
    split
    · exact addVote_nodup _ _ _ h
    · exact h

/-- Helper: every key of the fold's output key list is a key of the
accumulator or the value of a surviving result. -/
theorem tallyFold_keys_from (results : List ExtractionResult) :
    ∀ acc k, k ∈ (results.foldl tallyStep acc).map Prod.fst →
      k ∈ acc.map Prod.fst ∨
        ∃ r ∈ results, r.HasValue = true ∧ r.Value = some k := by
  induction results with
  | nil => intro acc k h; exact Or.inl (by simpa using h)
  | cons r rest ih =>
    intro acc k h
    rw [List.foldl_cons] at h
    rcases ih _ k h with hacc | ⟨x, hx, hhv, hval⟩
    · unfold tallyStep at hacc
      by_cases hr : r.HasValue
      · rw [if_pos hr] at hacc
        rw [addVote_keys] at hacc
        split at hacc
        · exact Or.inl hacc
        · rcases List.mem_append.mp hacc with h1 | h1
          · exact Or.inl h1
          · right
            refine ⟨r, List.mem_cons_self r rest, hr, ?_⟩
            have hk : r.Value.getD "" = k := by
              have := List.mem_singleton.mp h1
              exact this.symm
            rw [hasValue_getD r hr, hk]
      · rw [if_neg hr] at hacc
        exact Or.inl hacc
    · exact Or.inr ⟨x, List.mem_cons_of_mem r hx, hhv, hval⟩

/-- Helper: in a vote list with distinct keys, the recorded pair value is
the key total. -/
theorem keyTotal_of_not_mem (l : List (String × ℤ)) (k : String)
    (h : k ∉ l.map Prod.fst) : keyTotal l k = 0 := by
  induction l with
  | nil => rfl
  | cons p rest ih =>
    obtain ⟨k0, v0⟩ := p
    rw [keyTotal_cons]
    have hne : k0 ≠ k := by
      intro hk
      exact h (by rw [← hk]; exact List.mem_cons_self _ _)
    rw [if_neg hne, ih (fun hx => h (List.mem_cons_of_mem _ hx))]
    ring

/-- Helper: in a vote list with distinct keys, the recorded pair value is
the key total. -/
theorem keyTotal_of_mem (l : List (String × ℤ))
    (h : (l.map Prod.fst).Nodup) (k : String) (v : ℤ)
    (hmem : (k, v) ∈ l) : keyTotal l k = v := by
  induction l with
  | nil => simp at hmem
  | cons p rest ih =>
    obtain ⟨k0, v0⟩ := p
    have hhead : (List.map Prod.fst ((k0, v0) :: rest)) =
        k0 :: rest.map Prod.fst := rfl
    rw [hhead, List.nodup_cons] at h
    rcases List.mem_cons.mp hmem with h1 | h1
    · rw [Prod.mk.injEq] at h1
      obtain ⟨hk, hv⟩ := h1
      subst hk
      subst hv
      rw [keyTotal_cons, if_pos rfl, keyTotal_of_not_mem rest k h.1]
      ring
    · have hne : k0 ≠ k := by
        intro hk
        subst hk
        exact h.1 (List.mem_map_of_mem Prod.fst h1)
      rw [keyTotal_cons, if_neg hne, ih h.2 h1]
      ring

/-- Helper: `maxVoteKey` returns a key paired (in the running state or the
list) with a value that dominates the initial best and every listed value. -/
theorem maxVoteKey_spec (rest : List (String × ℤ)) :
    ∀ bestK bestV, ∃ n,
      ((maxVoteKey bestK bestV rest = bestK ∧ n = bestV) ∨
        (maxVoteKey bestK bestV rest, n) ∈ rest) ∧
      bestV ≤ n ∧ ∀ p ∈ rest, p.2 ≤ n := by
  induction rest with
  | nil => intro bestK bestV; exact ⟨bestV, Or.inl ⟨rfl, rfl⟩, le_refl _, by simp⟩
  | cons p rest ih =>
    intro bestK bestV
    obtain ⟨k, v⟩ := p
    unfold maxVoteKey
    by_cases hgt : v > bestV
    · rw [if_pos hgt]
      obtain ⟨n, hloc, hle, hall⟩ := ih k v
      refine ⟨n, ?_, by linarith, ?_⟩
      · rcases hloc with ⟨heq, hn⟩ | hmem
        · exact Or.inr (by rw [heq, hn]; exact List.mem_cons_self _ _)
        · exact Or.inr (List.mem_cons_of_mem _ hmem)
      · intro q hq
        rcases List.mem_cons.mp hq with h1 | h1
        · rw [h1]; exact hle
        · exact hall q h1
    · rw [if_neg hgt]
      push_neg at hgt
      obtain ⟨n, hloc, hle, hall⟩ := ih bestK bestV
      refine ⟨n, ?_, hle, ?_⟩
      · rcases hloc with ⟨heq, hn⟩ | hmem
        · exact Or.inl ⟨heq, hn⟩
        · exact Or.inr (List.mem_cons_of_mem _ hmem)
      · intro q hq
        rcases List.mem_cons.mp hq with h1 | h1
        · rw [h1]; simp only []; linarith
        · exact hall q h1

/-- Helper: surviving votes are positive, so any key's vote total is
nonnegative. -/
theorem votesFor_nonneg (results : List ExtractionResult) (k : String) :
    0 ≤ votesFor results k := by
  induction results with
  | nil => simp [votesFor]
  | cons r rest ih =>
    rw [votesFor_cons]
    by_cases hcond : (r.HasValue && r.Value == some k) = true
    · rw [if_pos hcond]
      have hpos : 0 < r.Votes :=
        hasValue_votes_pos r ((Bool.and_eq_true _ _).mp hcond).1
      linarith
    · rw [if_neg hcond]
      linarith

/-- Helper: a surviving result with value `k` makes the vote total of `k`
strictly positive. -/
theorem votesFor_pos (results : List ExtractionResult) (k : String)
    (h : ∃ r ∈ results, r.HasValue = true ∧ r.Value = some k) :
    0 < votesFor results k := by
  induction results with
  | nil => simp at h
  | cons r rest ih =>
    obtain ⟨x, hx, hhv, hval⟩ := h
    rw [votesFor_cons]
    rcases List.mem_cons.mp hx with h1 | h1
    · subst h1
      have hcond : (x.HasValue && x.Value == some k) = true := by
        rw [hhv, hval]; simp
      rw [if_pos hcond]
      have hpos : 0 < x.Votes := hasValue_votes_pos x hhv
      have := votesFor_nonneg rest k
      linarith
    · have hrest := ih ⟨x, h1, hhv, hval⟩
      by_cases hcond : (r.HasValue && r.Value == some k) = true
      · rw [if_pos hcond]
        have hpos : 0 < r.Votes :=
          hasValue_votes_pos r ((Bool.and_eq_true _ _).mp hcond).1
        linarith
      · rw [if_neg hcond]
        linarith

/-- C4 counterexample: a single extractor returning the single result
`{Value = "", Votes = 3}` — an empty value string with positive votes — is
not discarded by `ExtractBest`; the empty string is returned instead of
`None`. -/
theorem extractBest_keeps_empty_value :
    ExtractBest ["t"] ⟨"t", ["t"], .Unknown, none, none, none⟩
      [fun _ => [⟨some "", 3, none⟩]] = some "" := rfl

/-- C4 amended: `ExtractBest` discards exactly the results whose value is
absent (`None`) or whose vote count is not positive, sums votes per
surviving value across all (text, extractor, result) triples, returns a
value whose vote sum dominates that of every candidate value, and returns
`None` exactly when no result survives.  (The claim's "empty value"
discarding is wrong: only a `None` value is discarded, the empty string
survives.) -/
theorem extractBest_vote_spec (texts : List String)
    (context : ExtractionContext) (extractors : List Extractor) :
    (ExtractBest texts context extractors = none ↔
      ∀ r ∈ allResults texts context extractors,
        r.Value = none ∨ r.Votes ≤ 0) ∧
    (∀ v, ExtractBest texts context extractors = some v →
      (∃ r ∈ allResults texts context extractors,
        r.HasValue = true ∧ r.Value = some v) ∧
      ∀ k, votesFor (allResults texts context extractors) k ≤
        votesFor (allResults texts context extractors) v) := by
  have hval_iff : ∀ r : ExtractionResult,
      r.HasValue = false ↔ (r.Value = none ∨ r.Votes ≤ 0) := by
    intro r
    unfold ExtractionResult.HasValue
    rw [Bool.and_eq_false_iff]
    constructor
    · rintro (h | h)
      · left; simpa using h
      · right; simpa using h
    · rintro (h | h)
      · left; simp [h]
      · right; simpa using h
  constructor
  · unfold ExtractBest
    constructor
    · intro h
      intro r hr
      rw [← hval_iff]
      have htally : tallyVotes (allResults texts context extractors) = [] := by
        revert h
        cases tallyVotes (allResults texts context extractors) with
        | nil => intro; rfl
        | cons p rest => intro h; simp at h
      unfold tallyVotes at htally
      exact ((tallyFold_eq_nil _ _).mp htally).2 r hr
    · intro h
      have htally : tallyVotes (allResults texts context extractors) = [] := by
        unfold tallyVotes
        rw [tallyFold_eq_nil]
        exact ⟨rfl, fun r hr => (hval_iff r).mpr (h r hr)⟩
      rw [htally]
  · intro v hv
    unfold ExtractBest at hv
    set results := allResults texts context extractors with hres
    rcases htl : tallyVotes results with _ | ⟨⟨k0, v0⟩, rest⟩
    · rw [htl] at hv; simp at hv
    · rw [htl] at hv
      have hveq : maxVoteKey k0 v0 rest = v := by
        injection hv
      obtain ⟨n, hloc, hle, hall⟩ := maxVoteKey_spec rest k0 v0
      rw [hveq] at hloc
      have hmem : (v, n) ∈ tallyVotes results := by
        rw [htl]
        rcases hloc with ⟨heq, hn⟩ | hmem
        · rw [heq, hn]; exact List.mem_cons_self _ _
        · exact List.mem_cons_of_mem _ hmem
      have hnodup : ((tallyVotes results).map Prod.fst).Nodup := by
        unfold tallyVotes
        exact tallyFold_nodup _ [] (by simp)
      have hkey : keyTotal (tallyVotes results) v = n :=
        keyTotal_of_mem _ hnodup v n hmem
      have hkt : ∀ k, keyTotal (tallyVotes results) k = votesFor results k := by
        intro k
        unfold tallyVotes
        rw [keyTotal_tallyFold]
        simp [keyTotal]
      have hsurv : ∃ r ∈ results, r.HasValue = true ∧ r.Value = some v := by
        have : v ∈ (tallyVotes results).map Prod.fst :=
          List.mem_map_of_mem Prod.fst hmem
        unfold tallyVotes at this
        rcases tallyFold_keys_from _ [] v this with habs | hgood
        · simp at habs
        · exact hgood
      refine ⟨hsurv, ?_⟩
      intro k
      have hn_eq : votesFor results v = n := by rw [← hkt v]; exact hkey
      have hnpos : 0 < n := by
        rw [← hn_eq]
        exact votesFor_pos results v hsurv
      by_cases hk : k ∈ (tallyVotes results).map Prod.fst
      · obtain ⟨p, hp, hpk⟩ := List.mem_map.mp hk
        have : keyTotal (tallyVotes results) k = p.2 := by
          have := keyTotal_of_mem _ hnodup p.1 p.2 (by simpa using hp)
          rw [hpk] at this
          exact this
        rw [← hkt k] at *
        rw [this, hn_eq]
        have hp2 : p.2 ≤ n := by
          rw [htl] at hp
          rcases List.mem_cons.mp hp with h1 | h1
          · rw [h1]; exact hle
          · exact hall p h1
        exact hp2
      · have : keyTotal (tallyVotes results) k = 0 := keyTotal_of_not_mem _ k hk
        rw [← hkt k, this, hn_eq]
        linarith

/-- C5 counterexample: the US-formatted string "1,234.56" does not yield
`None` under the European locale — the locale-independent fallback pattern
`^(\d[\d,]*)\.(\d{2})$` matches and `ParseAmount` returns the decimal
`1234.56` (coefficient 123456, exponent −2). -/
theorem parseAmount_us_string_under_european :
    ParseAmount "1,234.56" Locale.European = some ⟨123456, -2⟩ ∧
    PyDec.toRat ⟨123456, -2⟩ = 123456/100 := by
  constructor
  · decide
  · rw [PyDec.toRat]
    norm_num

/-- C5 amended: the locale-specific shapes are tried first (European shapes
under the European locale, US shapes under the US locale), but when they
fail the two separator-convention fallback patterns and a plain decimal
parse run under every locale; unparseable text yields `None`.  Concretely:
both "1.234,56" and "1,234.56" parse to 1234.56 (coefficient 123456,
exponent −2) under all three locales, the simple shapes parse under their
locale, and "abc" yields `None`. -/
theorem parseAmount_locale_behaviour :
    ParseAmount "1.234,56" Locale.European = some ⟨123456, -2⟩ ∧
    ParseAmount "1 234,56" Locale.European = some ⟨123456, -2⟩ ∧
    ParseAmount "12,34" Locale.European = some ⟨1234, -2⟩ ∧
    ParseAmount "1,234.56" Locale.European = some ⟨123456, -2⟩ ∧
    ParseAmount "1,234.56" Locale.US = some ⟨123456, -2⟩ ∧
    ParseAmount "12.34" Locale.US = some ⟨1234, -2⟩ ∧
    ParseAmount "1.234,56" Locale.US = some ⟨123456, -2⟩ ∧
    ParseAmount "1,234.56" Locale.Unknown = some ⟨123456, -2⟩ ∧
    ParseAmount "1.234,56" Locale.Unknown = some ⟨123456, -2⟩ ∧
    ParseAmount "abc" Locale.European = none := by
  refine ⟨?_, ?_, ?_, ?_, ?_, ?_, ?_, ?_, ?_, ?_⟩ <;> decide

/-- C6 counterexample: the text "15.08.2024" matches the European dot shape
`DD.MM.YYYY`, yet under the US locale `DateParser.Parse` returns `None` —
the dot branch is guarded by `locale != Locale.US`, so the claim's "a text
matching the European dot shape yields a non-None date under every locale"
fails. -/
theorem dateParse_dot_none_under_us :
    DateParserParse "15.08.2024" Locale.US = none := by decide

/-- C6 amended: a text matching the European dot shape with a valid
calendar date yields that date under every locale other than US, and `None`
under the US locale, where the dot shape is skipped; `Parse` returns `None`
when no recognized shape produces a valid date under the locale's rules. -/
theorem dateParse_dot_shape_by_locale (locale : Locale) :
    DateParserParse "15.08.2024" locale =
      (if locale = Locale.US then none else some ⟨2024, 8, 15⟩) := by
  cases locale <;> decide

/-- C7 counterexample: on the text "Total due: 2024" the anchored
total-amount extractor returns the candidate "2024" (11 votes) whose parsed
amount, the integral decimal 2024, lies in [1900, 2100] — the code's own
`_is_likely_year` accepts it — because the anchored-match path applies no
year rejection. -/
theorem extractAll_returns_year_candidate :
    extractAllTotalAmount
        ⟨"Total due: 2024", [], Locale.Unknown, none, none, none⟩ =
      [⟨some "2024", 11, some "2024"⟩] ∧
    ParseAmount "2024" Locale.Unknown = some ⟨2024, 0⟩ ∧
    isLikelyYear ⟨2024, 0⟩ = true := by
  refine ⟨?_, ?_, ?_⟩ <;> decide

/-- C7 amended: the year rejection (integral amount in [1900, 2100]) is
applied only in the total-due block search — `_extract_best_amount_from_line`
and `_add_line_candidates` — and only when the line has no currency token;
with a currency token on the line, or through the anchored-match path
(which has no year check), year-like amounts are returned.  Concretely: the
currency-free total-due line and neighbour line reject 2024, while
"Total due: 2024 kr" yields the year 2024 from both the inline path (6
votes) and the anchored path (13 votes). -/
theorem yearRejection_scope :
    extractBestAmountFromLine "Total due: 2024".data Locale.Unknown = none ∧
    addLineCandidates ["Total due:".data, "2024".data] 1 1 Locale.Unknown =
      [] ∧
    extractAllTotalAmount
        ⟨"Total due: 2024 kr", [], Locale.Unknown, none, none, none⟩ =
      [⟨some "2024", 6, some "Total due: 2024 kr"⟩,
       ⟨some "2024", 13, some "2024"⟩] := by
  refine ⟨?_, ?_, ?_⟩ <;> decide

/-- Helper: a left fold of `min` is bounded by its seed. -/
theorem foldl_min_le_init (l : List ℕ) (a : ℕ) : l.foldl min a ≤ a := by
  induction l generalizing a with
  | nil => exact le_refl a
  | cons x t ih => exact le_trans (ih (min a x)) (min_le_left a x)

/-- Helper: a left fold of `min` is bounded by every element. -/
theorem foldl_min_le_mem (l : List ℕ) (a c : ℕ) (h : c ∈ l) :
    l.foldl min a ≤ c := by
  induction l generalizing a with
  | nil => simp at h
  | cons x t ih =>
    rcases List.mem_cons.mp h with h1 | h1
    · subst h1
      exact le_trans (foldl_min_le_init t (min a c)) (min_le_right a c)
    · exact ih (min a x) h1

/-- Helper: a lower bound of the seed and every element bounds the fold. -/
theorem le_foldl_min (l : List ℕ) (a s : ℕ) (ha : s ≤ a)
    (h : ∀ x ∈ l, s ≤ x) : s ≤ l.foldl min a := by
  induction l generalizing a with
  | nil => exact ha
  | cons x t ih =>
    exact ih (min a x) (le_min ha (h x (List.mem_cons_self x t)))
      fun y hy => h y (List.mem_cons_of_mem x hy)

/-- Helper: a left fold of `max` dominates its seed. -/
theorem init_le_foldl_max (l : List ℕ) (a : ℕ) : a ≤ l.foldl max a := by
  induction l generalizing a with
  | nil => exact le_refl a
  | cons x t ih => exact le_trans (le_max_left a x) (ih (max a x))

/-- Helper: a left fold of `max` dominates every element. -/
theorem mem_le_foldl_max (l : List ℕ) (a c : ℕ) (h : c ∈ l) :
    c ≤ l.foldl max a := by
  induction l generalizing a with
  | nil => simp at h
  | cons x t ih =>
    rcases List.mem_cons.mp h with h1 | h1
    · subst h1
      exact le_trans (le_max_right a c) (init_le_foldl_max t (max a c))
    · exact ih (max a x) h1

/-- Helper: an upper bound of the seed and every element bounds the fold. -/
theorem foldl_max_le (l : List ℕ) (a s : ℕ) (ha : a ≤ s)
    (h : ∀ x ∈ l, x ≤ s) : l.foldl max a ≤ s := by
  induction l generalizing a with
  | nil => exact ha
  | cons x t ih =>
    exact ih (max a x) (max_le ha (h x (List.mem_cons_self x t)))
      fun y hy => h y (List.mem_cons_of_mem x hy)

/-- Helper: the bounds returned by `find_text_bounds` lie inside the
scanned column range. -/
theorem findTextBounds_in_range (m : List (List Char))
    (a b s e : ℕ) (p : ℕ × ℕ)
    (h : findTextBounds m a b s e = some p) :
    s ≤ p.1 ∧ p.1 ≤ p.2 ∧ p.2 < e := by
  unfold findTextBounds at h
  rcases hl : (List.range' s (e - s)).filter
      (fun c => ¬ isBlankCol m c a b) with _ | ⟨c, rest⟩
  · rw [hl] at h
    simp at h
  · rw [hl] at h
    have hmem : ∀ x ∈ c :: rest, s ≤ x ∧ x < e := by
      intro x hx
      have : x ∈ (List.range' s (e - s)).filter
          (fun c => ¬ isBlankCol m c a b) := hl ▸ hx
      have hr := (List.mem_filter.mp this).1
      have := List.mem_range'_1.mp hr
      have hse : s ≤ x := this.1
      have hxe : x < e := by
        have := this.2
        omega
      exact ⟨hse, hxe⟩
    have hc := hmem c (List.mem_cons_self c rest)
    have hp : p = (rest.foldl min c, rest.foldl max c) := by
      injection h with h'
      exact h'.symm
    subst hp
    refine ⟨?_, ?_, ?_⟩
    · exact le_foldl_min rest c s hc.1 fun x hx =>
        (hmem x (List.mem_cons_of_mem c hx)).1
    · exact le_trans (foldl_min_le_init rest c) (init_le_foldl_max rest c)
    · have he : 0 < e := lt_of_le_of_lt (Nat.zero_le c) hc.2
      have : rest.foldl max c ≤ e - 1 :=
        foldl_max_le rest c (e - 1) (by omega) fun x hx => by
          have := (hmem x (List.mem_cons_of_mem c hx)).2
          omega
      omega

/-- Helper: a non-blank column inside the scanned range is inside the
returned bounds. -/
theorem findTextBounds_covers (m : List (List Char)) (a b s e c : ℕ)
    (hs : s ≤ c) (he : c < e) (hnb : isBlankCol m c a b = false) :
    ∃ p, findTextBounds m a b s e = some p ∧ p.1 ≤ c ∧ c ≤ p.2 := by
  have hmem : c ∈ (List.range' s (e - s)).filter
      (fun c => ¬ isBlankCol m c a b) := by
    rw [List.mem_filter]
    constructor
    · rw [List.mem_range'_1]
      constructor
      · exact hs
      · omega
    · simp [hnb]
  unfold findTextBounds
  rcases hl : (List.range' s (e - s)).filter
      (fun c => ¬ isBlankCol m c a b) with _ | ⟨c0, rest⟩
  · rw [hl] at hmem
    simp at hmem
  · rw [hl] at hmem
    refine ⟨(rest.foldl min c0, rest.foldl max c0), rfl, ?_, ?_⟩
    · rcases List.mem_cons.mp hmem with h1 | h1
      · subst h1
        exact foldl_min_le_init rest c
      · exact foldl_min_le_mem rest c0 c h1
    · rcases List.mem_cons.mp hmem with h1 | h1
      · subst h1
        exact init_le_foldl_max rest c
      · exact mem_le_foldl_max rest c0 c h1

/-- Helper: pairwise-related lists relate any two members (or they are the
same value). -/
theorem pairwise_mem_cases {α : Type} {R : α → α → Prop} :
    ∀ {l : List α}, List.Pairwise R l →
      ∀ x ∈ l, ∀ y ∈ l, x = y ∨ R x y ∨ R y x := by
  intro l
  induction l with
  | nil => intro _ x hx; simp at hx
  | cons a t ih =>
    intro h x hx y hy
    have hp := List.pairwise_cons.mp h
    rcases List.mem_cons.mp hx with hx1 | hx1 <;>
      rcases List.mem_cons.mp hy with hy1 | hy1
    · subst hx1; subst hy1; exact Or.inl rfl
    · subst hx1; exact Or.inr (Or.inl (hp.1 y hy1))
    · subst hy1; exact Or.inr (Or.inr (hp.1 x hx1))
    · exact ih hp.2 x hx1 y hy1

/-- Helper: invariants of the gap-scanning loop.  Scanning columns
`k..width-1` with loop state `(inGap, gapStart)` — where an open gap means
`gapStart < k` with columns `gapStart..k-1` blank — yields gaps that start
at or after the loop's low mark, are ordered and disjoint, lie before
`width`, and consist of blank columns only. -/
theorem findVerticalGapsAux_spec (m : List (List Char)) (a b g width : ℕ) :
    ∀ n k inGap gapStart,
      n = width - k → k ≤ width →
      (inGap = true → gapStart < k ∧
        ∀ c, gapStart ≤ c → c < k → isBlankCol m c a b = true) →
      (∀ p ∈ findVerticalGapsAux m a b g (List.range' k n) inGap gapStart,
          (if inGap = true then gapStart else k) ≤ p.1 ∧ p.1 ≤ p.2 ∧
            p.2 < width) ∧
      List.Pairwise (fun s t => s.2 < t.1)
        (findVerticalGapsAux m a b g (List.range' k n) inGap gapStart) ∧
      (∀ p ∈ findVerticalGapsAux m a b g (List.range' k n) inGap gapStart,
          ∀ c, p.1 ≤ c → c ≤ p.2 → isBlankCol m c a b = true) := by
  intro n
  induction n with
  | zero =>
    intro k inGap gapStart _ _ _
    refine ⟨?_, ?_, ?_⟩ <;> simp [List.range'_zero, findVerticalGapsAux]
  | succ n ih =>
    intro k inGap gapStart hn hk hinv
    have hkw : k < width := by omega
    have hn' : n = width - (k + 1) := by omega
    rw [List.range'_succ]
    by_cases hblank : isBlankCol m k a b = true
    · cases inGap with
      | true =>
        have hinv' := hinv rfl
        have step : findVerticalGapsAux m a b g
              (k :: List.range' (k + 1) n 1) true gapStart =
            findVerticalGapsAux m a b g (List.range' (k + 1) n 1) true
              gapStart := by
          simp [findVerticalGapsAux, hblank]
        rw [step]
        have hIH := ih (k + 1) true gapStart hn' (by omega) (by
          intro _
          refine ⟨by omega, fun c hc1 hc2 => ?_⟩
          by_cases hck : c < k
          · exact hinv'.2 c hc1 hck
          · have hck' : c = k := by omega
            subst hck'
            exact hblank)
        refine ⟨?_, hIH.2.1, hIH.2.2⟩
        intro p hp
        have h1 := hIH.1 p hp
        simpa using h1
      | false =>
        have step : findVerticalGapsAux m a b g
              (k :: List.range' (k + 1) n 1) false gapStart =
            findVerticalGapsAux m a b g (List.range' (k + 1) n 1) true k := by
          simp [findVerticalGapsAux, hblank]
        rw [step]
        have hIH := ih (k + 1) true k hn' (by omega) (by
          intro _
          refine ⟨by omega, fun c hc1 hc2 => ?_⟩
          have hck : c = k := by omega
          subst hck
          exact hblank)
        refine ⟨?_, hIH.2.1, hIH.2.2⟩
        intro p hp
        have h1 := hIH.1 p hp
        simpa using h1
    · have hblank' : isBlankCol m k a b = false := Bool.eq_false_iff.mpr hblank
      cases inGap with
      | true =>
        have hinv' := hinv rfl
        by_cases hwide : g ≤ k - gapStart
        · have step : findVerticalGapsAux m a b g
                (k :: List.range' (k + 1) n 1) true gapStart =
              (gapStart, k - 1) ::
                findVerticalGapsAux m a b g (List.range' (k + 1) n 1) false
                  gapStart := by
            simp [findVerticalGapsAux, hblank', hwide]
          rw [step]
          have hIH := ih (k + 1) false gapStart hn' (by omega)
            (fun h => by simp at h)
          refine ⟨?_, ?_, ?_⟩
          · intro p hp
            rcases List.mem_cons.mp hp with h1 | h1
            · subst h1
              refine ⟨by simp, by simp; omega, by simp; omega⟩
            · have h2 := hIH.1 p h1
              rw [if_neg (by simp : ¬ (false = true))] at h2
              rw [if_pos rfl]
              have hgk := hinv'.1
              exact ⟨by omega, h2.2⟩
          · rw [List.pairwise_cons]
            refine ⟨?_, hIH.2.1⟩
            intro t ht
            have h2 := hIH.1 t ht
            simp at h2 ⊢
            omega
          · intro p hp c hc1 hc2
            rcases List.mem_cons.mp hp with h1 | h1
            · subst h1
              simp at hc1 hc2
              exact hinv'.2 c hc1 (by omega)
            · exact hIH.2.2 p h1 c hc1 hc2
        · have step : findVerticalGapsAux m a b g
                (k :: List.range' (k + 1) n 1) true gapStart =
              findVerticalGapsAux m a b g (List.range' (k + 1) n 1) false
                gapStart := by
            simp [findVerticalGapsAux, hblank', hwide]
          rw [step]
          have hIH := ih (k + 1) false gapStart hn' (by omega)
            (fun h => by simp at h)
          refine ⟨?_, hIH.2.1, hIH.2.2⟩
          intro p hp
          have h2 := hIH.1 p hp
          rw [if_neg (by simp : ¬ (false = true))] at h2
          rw [if_pos rfl]
          have hgk := hinv'.1
          exact ⟨by omega, h2.2⟩
      | false =>
        have step : findVerticalGapsAux m a b g
              (k :: List.range' (k + 1) n 1) false gapStart =
            findVerticalGapsAux m a b g (List.range' (k + 1) n 1) false
              gapStart := by
          simp [findVerticalGapsAux, hblank']
        rw [step]
        have hIH := ih (k + 1) false gapStart hn' (by omega)
          (fun h => by simp at h)
        refine ⟨?_, hIH.2.1, hIH.2.2⟩
        intro p hp
        have h2 := hIH.1 p hp
        rw [if_neg (by simp : ¬ (false = true))] at h2 ⊢
        exact ⟨by omega, h2.2⟩

/-- Helper: the gap loop of `split_vertical`.  Given gaps that are ordered,
blank, in range and at or after `prevEnd`, the produced column ranges start
at or after `prevEnd`, are ordered and disjoint, and cover every non-blank
column at or after `prevEnd`. -/
theorem splitVerticalAux_spec (m : List (List Char)) (a b width : ℕ) :
    ∀ gaps prevEnd,
      (∀ p ∈ gaps, p.1 ≤ p.2 ∧ p.2 < width) →
      List.Pairwise (fun s t => s.2 < t.1) gaps →
      (∀ p ∈ gaps, ∀ c, p.1 ≤ c → c ≤ p.2 → isBlankCol m c a b = true) →
      (∀ p ∈ gaps, prevEnd ≤ p.1) →
      (∀ q ∈ splitVerticalAux m a b width gaps prevEnd,
          prevEnd ≤ q.1 ∧ q.1 ≤ q.2 ∧ q.2 < width) ∧
      List.Pairwise (fun s t => s.2 < t.1)
        (splitVerticalAux m a b width gaps prevEnd) ∧
      (∀ c, prevEnd ≤ c → c < width → isBlankCol m c a b = false →
          ∃ q ∈ splitVerticalAux m a b width gaps prevEnd,
            q.1 ≤ c ∧ c ≤ q.2) := by
  intro gaps
  induction gaps with
  | nil =>
    intro prevEnd _ _ _ _
    by_cases hpw : prevEnd < width
    · rcases hftb : findTextBounds m a b prevEnd width with _ | p
      · have hout : splitVerticalAux m a b width [] prevEnd = [] := by
          simp [splitVerticalAux, hpw, hftb]
        rw [hout]
        refine ⟨by simp, by simp, ?_⟩
        intro c hc1 hc2 hnb
        rcases findTextBounds_covers m a b prevEnd width c hc1 hc2 hnb with
          ⟨p, hp, _⟩
        rw [hftb] at hp
        cases hp
      · have hout : splitVerticalAux m a b width [] prevEnd = [p] := by
          simp [splitVerticalAux, hpw, hftb]
        rw [hout]
        have hin := findTextBounds_in_range m a b prevEnd width p hftb
        refine ⟨?_, by simp, ?_⟩
        · intro q hq
          simp at hq
          subst hq
          exact hin
        · intro c hc1 hc2 hnb
          rcases findTextBounds_covers m a b prevEnd width c hc1 hc2 hnb with
            ⟨p', hp', hcov⟩
          rw [hftb] at hp'
          injection hp' with hpe
          subst hpe
          exact ⟨p, by simp, hcov⟩
    · have hout : splitVerticalAux m a b width [] prevEnd = [] := by
        simp [splitVerticalAux, hpw]
      rw [hout]
      refine ⟨by simp, by simp, ?_⟩
      intro c hc1 hc2 _
      exact absurd (Nat.lt_of_le_of_lt hc1 hc2) hpw
  | cons gp rest ih =>
    obtain ⟨gs, ge⟩ := gp
    intro prevEnd hb hpw hblank hlow
    have hbhead := hb (gs, ge) (List.mem_cons_self _ _)
    rw [List.pairwise_cons] at hpw
    have hlowhead := hlow (gs, ge) (List.mem_cons_self _ _)
    have hIH := ih (ge + 1)
      (fun p hp => hb p (List.mem_cons_of_mem _ hp))
      hpw.2
      (fun p hp => hblank p (List.mem_cons_of_mem _ hp))
      (fun p hp => by have := hpw.1 p hp; omega)
    rcases hftb : findTextBounds m a b prevEnd gs with _ | p
    · have hout : splitVerticalAux m a b width ((gs, ge) :: rest) prevEnd =
          splitVerticalAux m a b width rest (ge + 1) := by
        simp [splitVerticalAux, hftb]
      rw [hout]
      refine ⟨?_, hIH.2.1, ?_⟩
      · intro q hq
        have h1 := hIH.1 q hq
        have : prevEnd ≤ gs := hlowhead
        refine ⟨by omega, h1.2⟩
      · intro c hc1 hc2 hnb
        by_cases hcg : c < gs
        · rcases findTextBounds_covers m a b prevEnd gs c hc1 hcg hnb with
            ⟨p', hp', _⟩
          rw [hftb] at hp'
          cases hp'
        · by_cases hce : c ≤ ge
          · have hblk := hblank (gs, ge) (List.mem_cons_self _ _) c
              (by omega) hce
            rw [hblk] at hnb
            cases hnb
          · exact hIH.2.2 c (by omega) hc2 hnb
    · have hout : splitVerticalAux m a b width ((gs, ge) :: rest) prevEnd =
          p :: splitVerticalAux m a b width rest (ge + 1) := by
        simp [splitVerticalAux, hftb]
      rw [hout]
      have hin := findTextBounds_in_range m a b prevEnd gs p hftb
      refine ⟨?_, ?_, ?_⟩
      · intro q hq
        rcases List.mem_cons.mp hq with h1 | h1
        · subst h1
          refine ⟨hin.1, hin.2.1, ?_⟩
          have := hin.2.2
          simp at hbhead
          omega
        · have h1' := hIH.1 q h1
          have : prevEnd ≤ gs := hlowhead
          refine ⟨by omega, h1'.2⟩
      · rw [List.pairwise_cons]
        refine ⟨?_, hIH.2.1⟩
        intro t ht
        have h1 := hIH.1 t ht
        have := hin.2.2
        omega
      · intro c hc1 hc2 hnb
        by_cases hcg : c < gs
        · rcases findTextBounds_covers m a b prevEnd gs c hc1 hcg hnb with
            ⟨p', hp', hcov⟩
          rw [hftb] at hp'
          injection hp' with hpe
          subst hpe
          exact ⟨p, List.mem_cons_self _ _, hcov⟩
        · by_cases hce : c ≤ ge
          · have hblk := hblank (gs, ge) (List.mem_cons_self _ _) c
              (by omega) hce
            rw [hblk] at hnb
            cases hnb
          · rcases hIH.2.2 c (by omega) hc2 hnb with ⟨q, hq, hcov⟩
            exact ⟨q, List.mem_cons_of_mem _ hq, hcov⟩

/-- Helper: `split_vertical` returns ordered, disjoint, in-range column
ranges that cover every non-blank column of the scanned band. -/
theorem splitVertical_spec (m : List (List Char)) (a b g : ℕ) :
    (∀ q ∈ splitVertical m a b g,
        q.1 ≤ q.2 ∧ q.2 < (m.headD []).length) ∧
    List.Pairwise (fun s t => s.2 < t.1) (splitVertical m a b g) ∧
    (∀ c, c < (m.headD []).length → isBlankCol m c a b = false →
        ∃ q ∈ splitVertical m a b g, q.1 ≤ c ∧ c ≤ q.2) := by
  by_cases hne : (m.isEmpty || (m.headD []).isEmpty) = true
  · have hout : splitVertical m a b g = [] := by
      simp only [splitVertical]
      rw [if_pos hne]
    have hw : (m.headD []).length = 0 := by
      simp only [Bool.or_eq_true, List.isEmpty_iff] at hne
      rcases hne with h | h
      · rw [h]
        rfl
      · rw [h]
        rfl
    rw [hout]
    refine ⟨by simp, by simp, ?_⟩
    intro c hc _
    rw [hw] at hc
    exact absurd hc (Nat.not_lt_zero c)
  · have hne' : (m.isEmpty || (m.headD []).isEmpty) = false :=
      Bool.eq_false_iff.mpr hne
    have hvg : findVerticalGaps m a b g =
        findVerticalGapsAux m a b g
          (List.range' 0 (m.headD []).length) false 0 := by
      unfold findVerticalGaps
      rw [if_neg hne]
      rw [List.range_eq_range']
    have hGS := findVerticalGapsAux_spec m a b g (m.headD []).length
      (m.headD []).length 0 false 0 (by omega) (Nat.zero_le _)
      (fun h => by simp at h)
    rcases hg : findVerticalGaps m a b g with _ | ⟨g0, gaps⟩
    · rcases hftb : findTextBounds m a b 0 (m.headD []).length with _ | p
      · have hout : splitVertical m a b g = [] := by
          unfold splitVertical
          rw [if_neg hne]
          simp only [hg, hftb]
        rw [hout]
        refine ⟨by simp, by simp, ?_⟩
        intro c hc hnb
        rcases findTextBounds_covers m a b 0 (m.headD []).length c
          (Nat.zero_le c) hc hnb with ⟨p, hp, _⟩
        rw [hftb] at hp
        cases hp
      · have hout : splitVertical m a b g = [p] := by
          unfold splitVertical
          rw [if_neg hne]
          simp only [hg, hftb]
        rw [hout]
        have hin := findTextBounds_in_range m a b 0 (m.headD []).length p hftb
        refine ⟨?_, by simp, ?_⟩
        · intro q hq
          simp at hq
          subst hq
          exact hin.2
        · intro c hc hnb
          rcases findTextBounds_covers m a b 0 (m.headD []).length c
            (Nat.zero_le c) hc hnb with ⟨p', hp', hcov⟩
          rw [hftb] at hp'
          injection hp' with hpe
          subst hpe
          exact ⟨p, by simp, hcov⟩
    · have hg' : findVerticalGapsAux m a b g
          (List.range' 0 (m.headD []).length) false 0 = g0 :: gaps := by
        rw [← hvg]
        exact hg
      rw [hg'] at hGS
      have hout : splitVertical m a b g =
          splitVerticalAux m a b (m.headD []).length (g0 :: gaps) 0 := by
        unfold splitVertical
        rw [if_neg hne]
        simp only [hg]
      have hSV := splitVerticalAux_spec m a b (m.headD []).length
        (g0 :: gaps) 0
        (fun p hp => (hGS.1 p hp).2)
        hGS.2.1
        hGS.2.2
        (fun p _ => Nat.zero_le _)
      rw [hout]
      refine ⟨?_, hSV.2.1, ?_⟩
      · intro q hq
        exact (hSV.1 q hq).2
      · intro c hc hnb
        exact hSV.2.2 c (Nat.zero_le c) hc hnb

/-- Helper: invariants of the row loop of `split_horizontal`.  Scanning
rows `k..len-1` with an open section meaning `start < k`, the produced
sections are in range, ordered and disjoint, and cover the rows of the
open section together with every later non-blank row. -/
theorem splitHorizontalAux_spec (m : List (List Char)) :
    ∀ n k inSec start,
      n = m.length - k → k ≤ m.length →
      (inSec = true → start < k) →
      (∀ s ∈ splitHorizontalAux m (List.range' k n) inSec start,
          (if inSec = true then start else k) ≤ s.1 ∧ s.1 ≤ s.2 ∧
            s.2 < m.length) ∧
      List.Pairwise (fun s t => s.2 < t.1)
        (splitHorizontalAux m (List.range' k n) inSec start) ∧
      (∀ r, (inSec = true ∧ start ≤ r ∧ r < k) ∨
          (k ≤ r ∧ r < m.length ∧ isBlankRow m r = false) →
          ∃ s ∈ splitHorizontalAux m (List.range' k n) inSec start,
            s.1 ≤ r ∧ r ≤ s.2) := by
  intro n
  induction n with
  | zero =>
    intro k inSec start hn hk hinv
    have hkm : k = m.length := by omega
    cases inSec with
    | true =>
      have hsk := hinv rfl
      have hout : splitHorizontalAux m (List.range' k 0) true start =
          [(start, m.length - 1)] := by
        simp [List.range'_zero, splitHorizontalAux]
      rw [hout]
      refine ⟨?_, by simp, ?_⟩
      · intro s hsm
        simp at hsm
        subst hsm
        rw [if_pos rfl]
        refine ⟨le_refl start, ?_, ?_⟩
        · show start ≤ m.length - 1
          omega
        · show m.length - 1 < m.length
          omega
      · intro r hr
        rcases hr with ⟨_, h1, h2⟩ | ⟨h1, h2, _⟩
        · refine ⟨(start, m.length - 1), by simp, h1, ?_⟩
          show r ≤ m.length - 1
          omega
        · exact absurd h2 (by omega)
    | false =>
      have hout : splitHorizontalAux m (List.range' k 0) false start =
          [] := by
        simp [List.range'_zero, splitHorizontalAux]
      rw [hout]
      refine ⟨by simp, by simp, ?_⟩
      intro r hr
      rcases hr with ⟨hfalse, _, _⟩ | ⟨h1, h2, _⟩
      · cases hfalse
      · exact absurd h2 (by omega)
  | succ n ih =>
    intro k inSec start hn hk hinv
    have hkm : k < m.length := by omega
    have hn' : n = m.length - (k + 1) := by omega
    rw [List.range'_succ]
    by_cases hblank : isBlankRow m k = true
    · cases inSec with
      | true =>
        have hsk := hinv rfl
        have hout : splitHorizontalAux m (k :: List.range' (k + 1) n 1)
              true start =
            (start, k - 1) ::
              splitHorizontalAux m (List.range' (k + 1) n 1) false start := by
          simp [splitHorizontalAux, hblank]
        rw [hout]
        have hIH := ih (k + 1) false start hn' (by omega)
          (fun h => by simp at h)
        refine ⟨?_, ?_, ?_⟩
        · intro s hs
          rcases List.mem_cons.mp hs with h1 | h1
          · subst h1
            rw [if_pos rfl]
            refine ⟨le_refl start, ?_, ?_⟩
            · show start ≤ k - 1
              omega
            · show k - 1 < m.length
              omega
          · have h2 := hIH.1 s h1
            rw [if_neg (by simp : ¬ (false = true))] at h2
            rw [if_pos rfl]
            exact ⟨by omega, h2.2⟩
        · rw [List.pairwise_cons]
          refine ⟨?_, hIH.2.1⟩
          intro t ht
          have h2 := hIH.1 t ht
          rw [if_neg (by simp : ¬ (false = true))] at h2
          show k - 1 < t.1
          omega
        · intro r hr
          rcases hr with ⟨_, h1, h2⟩ | ⟨h1, h2, h3⟩
          · refine ⟨(start, k - 1), List.mem_cons_self _ _, h1, ?_⟩
            show r ≤ k - 1
            omega
          · have hrk : r ≠ k := by
              intro he
              subst he
              rw [h3] at hblank
              cases hblank
            rcases hIH.2.2 r (Or.inr ⟨by omega, h2, h3⟩) with ⟨s, hsm, hcov⟩
            exact ⟨s, List.mem_cons_of_mem _ hsm, hcov⟩
      | false =>
        have hout : splitHorizontalAux m (k :: List.range' (k + 1) n 1)
              false start =
            splitHorizontalAux m (List.range' (k + 1) n 1) false start := by
          simp [splitHorizontalAux, hblank]
        rw [hout]
        have hIH := ih (k + 1) false start hn' (by omega)
          (fun h => by simp at h)
        refine ⟨?_, hIH.2.1, ?_⟩
        · intro s hs
          have h2 := hIH.1 s hs
          rw [if_neg (by simp : ¬ (false = true))] at h2 ⊢
          exact ⟨by omega, h2.2⟩
        · intro r hr
          rcases hr with ⟨hfalse, _, _⟩ | ⟨h1, h2, h3⟩
          · cases hfalse
          · have hrk : r ≠ k := by
              intro he
              subst he
              rw [h3] at hblank
              cases hblank
            exact hIH.2.2 r (Or.inr ⟨by omega, h2, h3⟩)
    · have hblank' : isBlankRow m k = false := Bool.eq_false_iff.mpr hblank
      cases inSec with
      | true =>
        have hsk := hinv rfl
        have hout : splitHorizontalAux m (k :: List.range' (k + 1) n 1)
              true start =
            splitHorizontalAux m (List.range' (k + 1) n 1) true start := by
          simp [splitHorizontalAux, hblank']
        rw [hout]
        have hIH := ih (k + 1) true start hn' (by omega) (fun _ => by omega)
        refine ⟨?_, hIH.2.1, ?_⟩
        · intro s hs
          have h2 := hIH.1 s hs
          rw [if_pos rfl] at h2 ⊢
          exact h2
        · intro r hr
          rcases hr with ⟨_, h1, h2⟩ | ⟨h1, h2, h3⟩
          · exact hIH.2.2 r (Or.inl ⟨rfl, h1, by omega⟩)
          · by_cases hrk : r = k
            · exact hIH.2.2 r (Or.inl ⟨rfl, by omega, by omega⟩)
            · exact hIH.2.2 r (Or.inr ⟨by omega, h2, h3⟩)
      | false =>
        have hout : splitHorizontalAux m (k :: List.range' (k + 1) n 1)
              false start =
            splitHorizontalAux m (List.range' (k + 1) n 1) true k := by
          simp [splitHorizontalAux, hblank']
        rw [hout]
        have hIH := ih (k + 1) true k hn' (by omega) (fun _ => by omega)
        refine ⟨?_, hIH.2.1, ?_⟩
        · intro s hs
          have h2 := hIH.1 s hs
          rw [if_pos rfl] at h2
          rw [if_neg (by simp : ¬ (false = true))]
          exact h2
        · intro r hr
          rcases hr with ⟨hfalse, _, _⟩ | ⟨h1, h2, h3⟩
          · cases hfalse
          · by_cases hrk : r = k
            · exact hIH.2.2 r (Or.inl ⟨rfl, by omega, by omega⟩)
            · exact hIH.2.2 r (Or.inr ⟨by omega, h2, h3⟩)

/-- Helper: `split_horizontal` returns ordered, disjoint, in-range row
sections that cover every non-blank row. -/
theorem splitHorizontal_spec (m : List (List Char)) :
    (∀ s ∈ splitHorizontal m, s.1 ≤ s.2 ∧ s.2 < m.length) ∧
    List.Pairwise (fun s t => s.2 < t.1) (splitHorizontal m) ∧
    (∀ r, r < m.length → isBlankRow m r = false →
        ∃ s ∈ splitHorizontal m, s.1 ≤ r ∧ r ≤ s.2) := by
  by_cases hme : m.isEmpty = true
  · have hm : m = [] := by simpa using hme
    have hout : splitHorizontal m = [] := by
      rw [hm]
      rfl
    rw [hout]
    refine ⟨by simp, by simp, ?_⟩
    intro r hr _
    rw [hm] at hr
    simp at hr
  · have hout : splitHorizontal m =
        splitHorizontalAux m (List.range' 0 m.length) false 0 := by
      unfold splitHorizontal
      rw [if_neg hme]
      rw [List.range_eq_range']
    have hSH := splitHorizontalAux_spec m m.length 0 false 0 (by omega)
      (Nat.zero_le _) (fun h => by simp at h)
    rw [hout]
    refine ⟨?_, hSH.2.1, ?_⟩
    · intro s hs
      exact (hSH.1 s hs).2
    · intro r hr hnb
      exact hSH.2.2 r (Or.inr ⟨Nat.zero_le r, hr, hnb⟩)

/-- Helper: a right fold of `max` dominates every element. -/
theorem le_foldr_max (l : List ℕ) (a c : ℕ) (h : c ∈ l) :
    c ≤ l.foldr max a := by
  induction l with
  | nil => simp at h
  | cons x t ih =>
    rcases List.mem_cons.mp h with h1 | h1
    · subst h1
      exact le_max_left _ _
    · exact le_trans (ih h1) (le_max_right _ _)

/-- Helper: the default head of a non-empty list is a member. -/
theorem headD_mem {α : Type} (l : List α) (d : α) (h : l ≠ []) :
    l.headD d ∈ l := by
  cases l with
  | nil => exact absurd rfl h
  | cons x t => exact List.mem_cons_self x t

/-- Helper: every row of the padded matrix has the common padded width. -/
theorem textToMatrix_mem_length (text : String) :
    ∀ row ∈ textToMatrix text,
      row.length =
        ((splitLines text.data).map List.length).foldr max 0 := by
  intro row hrow
  simp only [textToMatrix, List.mem_map] at hrow
  rcases hrow with ⟨line, hline, heq⟩
  subst heq
  simp only [List.length_append, List.length_replicate]
  have hle : line.length ≤
      ((splitLines text.data).map List.length).foldr max 0 :=
    le_foldr_max _ 0 _ (List.mem_map.mpr ⟨line, hline, rfl⟩)
  omega

/-- Helper: the matrix produced by `text_to_matrix` is rectangular: any row
that exists has the same length as the first row. -/
theorem textToMatrix_row_eq_head (text : String) (r : ℕ)
    (hr : r < (textToMatrix text).length) :
    ((textToMatrix text).getD r []).length =
      ((textToMatrix text).headD []).length := by
  have hne : textToMatrix text ≠ [] := List.length_pos.mp (by omega)
  have hget : (textToMatrix text).getD r [] ∈ textToMatrix text := by
    rw [List.getD_eq_getElem _ _ hr]
    exact List.getElem_mem hr
  have hhead : (textToMatrix text).headD [] ∈ textToMatrix text :=
    headD_mem _ _ hne
  rw [textToMatrix_mem_length text _ hget,
    textToMatrix_mem_length text _ hhead]

/-- Helper: a row holding a non-blank cell is not a blank row. -/
theorem isBlankRow_false_of_cell (m : List (List Char)) (r c : ℕ)
    (h : cellNonBlank m r c) : isBlankRow m r = false := by
  rw [Bool.eq_false_iff]
  intro hall
  unfold isBlankRow at hall
  rw [List.all_eq_true] at hall
  have hmem : (m.getD r []).getD c ' ' ∈ m.getD r [] := by
    rw [List.getD_eq_getElem _ _ h.2.1]
    exact List.getElem_mem h.2.1
  have hsp := hall _ hmem
  rw [beq_iff_eq] at hsp
  exact h.2.2 hsp

/-- Helper: a column holding a non-blank cell within the scanned row band
is not a blank column. -/
theorem isBlankCol_false_of_cell (m : List (List Char)) (r c a b : ℕ)
    (h : cellNonBlank m r c) (har : a ≤ r) (hrb : r ≤ b) :
    isBlankCol m c a b = false := by
  rw [Bool.eq_false_iff]
  intro hall
  unfold isBlankCol at hall
  rw [List.all_eq_true] at hall
  have hrmem : r ∈ List.range' a (b + 1 - a) := by
    rw [List.mem_range'_1]
    omega
  have hsp := hall r hrmem
  rw [beq_iff_eq] at hsp
  exact h.2.2 hsp

/-- C1: the XY-cut rectangles of the padded character matrix of any input
string are pairwise disjoint, and every non-blank cell of the matrix lies
inside one of them.  Sections from `split_horizontal` have disjoint row
ranges; within one section the column ranges from `split_vertical` are
disjoint; every non-blank cell lies in a section covering its row and a
column range covering its column. -/
theorem xyCut_disjoint_cover (text : String) (g : ℕ) :
    (∀ R1 ∈ xyCutRectangles (textToMatrix text) g,
      ∀ R2 ∈ xyCutRectangles (textToMatrix text) g, R1 ≠ R2 →
        ∀ r c, rectContains R1 r c → ¬ rectContains R2 r c) ∧
    (∀ r c, cellNonBlank (textToMatrix text) r c →
      ∃ R ∈ xyCutRectangles (textToMatrix text) g, rectContains R r c) := by
  constructor
  · intro R1 hR1 R2 hR2 hne r c hc1 hc2
    simp only [xyCutRectangles, List.mem_flatMap, List.mem_map]
      at hR1 hR2
    rcases hR1 with ⟨s, hs, q1, hq1, he1⟩
    rcases hR2 with ⟨t, ht, q2, hq2, he2⟩
    subst he1
    subst he2
    have hSH := splitHorizontal_spec (textToMatrix text)
    rcases pairwise_mem_cases hSH.2.1 s hs t ht with hst | hst | hst
    · subst hst
      have hSV := splitVertical_spec (textToMatrix text) s.1 s.2 g
      rcases pairwise_mem_cases hSV.2.1 q1 hq1 q2 hq2 with hq | hq | hq
      · subst hq
        exact hne rfl
      · unfold rectContains at hc1 hc2
        simp at hc1 hc2
        omega
      · unfold rectContains at hc1 hc2
        simp at hc1 hc2
        omega
    · unfold rectContains at hc1 hc2
      simp at hc1 hc2
      omega
    · unfold rectContains at hc1 hc2
      simp at hc1 hc2
      omega
  · intro r c hcell
    have hr : r < (textToMatrix text).length := hcell.1
    have hrow := isBlankRow_false_of_cell (textToMatrix text) r c hcell
    have hSH := splitHorizontal_spec (textToMatrix text)
    rcases hSH.2.2 r hr hrow with ⟨s, hs, hsr1, hsr2⟩
    have hcol := isBlankCol_false_of_cell (textToMatrix text) r c s.1 s.2
      hcell hsr1 hsr2
    have hcw : c < ((textToMatrix text).headD []).length := by
      have hrl := textToMatrix_row_eq_head text r hr
      have hcc := hcell.2.1
      omega
    have hSV := splitVertical_spec (textToMatrix text) s.1 s.2 g
    rcases hSV.2.2 c hcw hcol with ⟨q, hq, hq1, hq2⟩
    refine ⟨(s.1, s.2, q.1, q.2), ?_, ?_⟩
    · simp only [xyCutRectangles, List.mem_flatMap, List.mem_map]
      exact ⟨s, hs, q, hq, rfl⟩
    · exact ⟨hsr1, hsr2, hq1, hq2⟩

/-- C4 amended witness. -/
theorem extractBest_vote_spec_witness :
    (∃ r ∈ allResults ["a"] ⟨"a", ["a"], .Unknown, none, none, none⟩
        [fun _ => [⟨some "x", 2, none⟩]],
      r.HasValue = true ∧ r.Value = some "x") ∧
    ∀ k, votesFor (allResults ["a"] ⟨"a", ["a"], .Unknown, none, none, none⟩
        [fun _ => [⟨some "x", 2, none⟩]]) k ≤
      votesFor (allResults ["a"] ⟨"a", ["a"], .Unknown, none, none, none⟩
        [fun _ => [⟨some "x", 2, none⟩]]) "x" :=
  (extractBest_vote_spec ["a"] ⟨"a", ["a"], .Unknown, none, none, none⟩
    [fun _ => [⟨some "x", 2, none⟩]]).2 "x" rfl

end TextLayout

